import Mathlib

/-!
Verification of the fouskoti Helm-release expander against its specification.

The definitions below are a shallow embedding of the Go sources:
  - pkg/repository/helm.go   (normalizeURL, helmRepoChartLoader)
  - pkg/repository/git.go    (normalizeGitReference, cloneRepo)
  - pkg/repository/oci.go    (getLatestMatchingVersion, getChartVersion)
  - pkg/repository/credentials.go (Credentials.FindForRepo)
  - repository.go            (expandHelmRelease, getRepositoryForHelmRelease,
                              releaseRepoFilter, releaseRepoRenderer,
                              loadChartDependencies)
Go's net/url, path, Masterminds/semver and the kustomize namespace filter are
modelled over a restricted but faithful grammar; machine integers do not occur
on any modelled path (all counters are unbounded in the source as well).
-/

/-- Split a character list at the first occurrence of `sep`.  Models the
behaviour of Go's strings.Index / strings.SplitN with separator `sep`. -/
def splitFirst (sep : Char) : List Char → Option (List Char × List Char)
  | [] => none
  | c :: rest =>
    if c = sep then some ([], rest)
    else
      match splitFirst sep rest with
      | some (a, b) => some (c :: a, b)
      | none => none

/-- Locate the first `://` in a URL string; the part before must contain no
colon.  Models the scheme extraction of Go's net/url for URLs of the form
`scheme://rest` (the present embedding does not model opaque URLs). -/
def splitScheme (l : List Char) : Option (List Char × List Char) :=
  match splitFirst ':' l with
  | none => none
  | some (before, after) =>
    match after with
    | '/' :: '/' :: tail => some (before, tail)
    | _ => none

/-- The subset of Go's `url.URL` fields the program reads or writes.  `host`
is the hostname without the port; Go's `URL.Host` corresponds to
`hostChars` below and `URL.Hostname()` to `host`. -/
structure GoURL where
  scheme : String
  user : Option String
  host : String
  port : Option String
  path : String
  query : Option String
  deriving DecidableEq, Repr

def hasChar (x : Char) (l : List Char) : Bool := l.any (fun c => c = x)

def isSchemeTail (c : Char) : Bool :=
  c.isAlphanum || c = '+' || c = '-' || c = '.'

def schemeOk : List Char → Bool
  | [] => false
  | c :: rest => c.isAlpha && rest.all isSchemeTail

def compOk (l : List Char) : Bool :=
  l.all (fun c => c ≠ '@' && c ≠ ':' && c ≠ '/')

def portOk (l : List Char) : Bool :=
  !l.isEmpty && l.all (·.isDigit)

def noDelims (l : List Char) : Bool :=
  l.all (fun c => c ≠ '?' && c ≠ '#')

def isNoneStr : Option String → Bool
  | none => true
  | some _ => false

def optUserOk : Option (List Char) → Bool
  | some u => compOk u && noDelims u
  | none => true

def optPortOk : Option (List Char) → Bool
  | some pt => portOk pt
  | none => true

def userPart : Option (List Char) → List Char
  | some usr => usr ++ ['@']
  | none => []

def portPart : Option (List Char) → List Char
  | some p => ':' :: p
  | none => []

def queryPart : Option (List Char) → List Char
  | some q => '?' :: q
  | none => []

/-- Validate and assemble the authority components. -/
def mkAuthority (user : Option (List Char)) (host : List Char)
    (port : Option (List Char)) : Option (Option String × String × Option String) :=
  if optUserOk user && (compOk host && noDelims host) && optPortOk port then
    some (user.map String.mk, String.mk host, port.map String.mk)
  else none

def parseHostPort (user : Option (List Char)) (hp : List Char) :
    Option (Option String × String × Option String) :=
  match splitFirst ':' hp with
  | some (h, pt) => mkAuthority user h (some pt)
  | none => mkAuthority user hp none

/-- Authority parsing: optional `user@`, host, optional `:port`. -/
def parseAuthority (auth : List Char) : Option (Option String × String × Option String) :=
  match splitFirst '@' auth with
  | some (u, hp) => parseHostPort (some u) hp
  | none => parseHostPort none auth

/-- Serialized authority (Go's `URL.Host`, host with optional port). -/
def hostChars (u : GoURL) : List Char :=
  u.host.data ++ portPart (u.port.map String.data)

/-- Serialization of a URL; models `url.URL.String()` on the modelled
grammar. -/
def urlChars (u : GoURL) : List Char :=
  (if u.scheme = "" then [] else u.scheme.data ++ [':', '/', '/']) ++
    userPart (u.user.map String.data) ++
    hostChars u ++ u.path.data ++
    queryPart (u.query.map String.data)

def urlString (u : GoURL) : String := String.mk (urlChars u)

def startsSlashSlash : List Char → Bool
  | c1 :: c2 :: _ => c1 == '/' && c2 == '/'
  | _ => false

def emptyOrAbs : List Char → Bool
  | [] => true
  | c :: _ => c == '/' 

def relPathOk (l : List Char) : Bool :=
  !hasChar ':' l && noDelims l && !startsSlashSlash l

def absPathOk (l : List Char) : Bool :=
  emptyOrAbs l && noDelims l

def queryOk : Option String → Bool
  | some q => !hasChar '#' q.data
  | none => true

def wfRel (u : GoURL) : Bool :=
  isNoneStr u.user && decide (u.host = "") && isNoneStr u.port &&
    relPathOk u.path.data && queryOk u.query

def wfSch (u : GoURL) : Bool :=
  schemeOk u.scheme.data &&
    optUserOk (u.user.map String.data) &&
    (compOk u.host.data && noDelims u.host.data) &&
    optPortOk (u.port.map String.data) &&
    absPathOk u.path.data && queryOk u.query

/-- Well-formedness of a URL record: exactly the invariants guaranteed by
parsing and preserved by the program's URL rewrites. -/
def wfURL (u : GoURL) : Bool :=
  if u.scheme = "" then wfRel u else wfSch u

def mkSchemeURL (sch : List Char) (auth : List Char) (path : List Char)
    (query : Option (List Char)) : Option GoURL :=
  match parseAuthority auth with
  | some (user, host, port) =>
    some { scheme := String.mk sch, user := user, host := host, port := port,
           path := String.mk path, query := query.map String.mk }
  | none => none

/-- Parse of the part before any query string. -/
def parseNoQuery (beforeQ : List Char) (query : Option (List Char)) : Option GoURL :=
  match splitScheme beforeQ with
  | some (sch, rest) =>
    if schemeOk sch then
      match splitFirst '/' rest with
      | some (a, p) => mkSchemeURL sch a ('/' :: p) query
      | none => mkSchemeURL sch rest [] query
    else none
  | none =>
    if hasChar ':' beforeQ then none
    else if startsSlashSlash beforeQ then none
    else
      some { scheme := "", user := none, host := "", port := none,
             path := String.mk beforeQ, query := query.map String.mk }

/-- Raw parse of the modelled URL grammar
`scheme://[user@]host[:port][/path][?query]` or a scheme-less relative
path.  Inputs outside the grammar (fragments, opaque URLs, userinfo with
passwords, IPv6 hosts) are outside the embedding's domain. -/
def rawParseURL (cs : List Char) : Option GoURL :=
  if hasChar '#' cs then none
  else
    match splitFirst '?' cs with
    | some (b, q) => parseNoQuery b (some q)
    | none => parseNoQuery cs none

/-- Parse with the grammar invariants enforced; models `url.Parse` on the
embedded domain. -/
def parseURLChars (cs : List Char) : Option GoURL :=
  (rawParseURL cs).filter wfURL

def parseURL (s : String) : Option GoURL := parseURLChars s.data

/-- Trailing-slash removal; models `strings.TrimRight(s, "/")`. -/
def trimRightSlashes (l : List Char) : List Char :=
  (l.reverse.dropWhile (fun c => c = '/')).reverse

/-- The normalization's OCI branch: strip all trailing slashes from the
path.  The source applies the same transform to `u.RawPath`; the modelled
grammar has no percent-encoding, so `RawPath` coincides with `Path`. -/
def ociTransform (u : GoURL) : GoURL :=
  { u with path := String.mk (trimRightSlashes u.path.data) }

/-- The normalization's default branch: strip trailing slashes, then append
exactly one. -/
def slashTransform (u : GoURL) : GoURL :=
  { u with path := String.mk (trimRightSlashes u.path.data ++ ['/']) }

/-- Embeds `normalizeURL` from pkg/repository/helm.go. -/
def normalizeURL (repositoryURL : String) : Option String :=
  if repositoryURL = "" then some ""
  else
    match parseURL repositoryURL with
    | none => none
    | some u =>
      if u.scheme = "oci" then some (urlString (ociTransform u))
      else some (urlString (slashTransform u))

/-- Number of trailing slashes of a character list. -/
def trailingSlashCount (l : List Char) : Nat :=
  (l.reverse.takeWhile (fun c => c = '/')).length

/-! ## Credentials (pkg/repository/credentials.go) -/

/-- One repository's credential map (Go `map[string]string`), modelled as an
association list; absent keys read as the empty string, as Go map access
does. -/
abbrev RepositoryCreds := List (String × String)

def lookupCred (creds : RepositoryCreds) (key : String) : String :=
  match creds.find? (fun kv => kv.1 == key) with
  | some kv => kv.2
  | none => ""

/-- The credentials store (Go `map[string]RepositoryCreds`); the list order
stands for the map's iteration order, which Go leaves unspecified. -/
abbrev Credentials := List (String × RepositoryCreds)

inductive CredErr where
  | unparsableStoredURL (storedURL : String)
  | badCloneURL (repoURL : String)
  deriving DecidableEq, Repr

def hostString (u : GoURL) : String := String.mk (hostChars u)

def usernameOf (u : GoURL) : String := u.user.getD ""

def lookupExact (credentials : Credentials) (key : String) : Option RepositoryCreds :=
  (credentials.find? (fun kv => kv.1 == key)).map (fun kv => kv.2)

/-- The fallback scan of `Credentials.FindForRepo`: compare
(scheme, host, username) of the query against each stored URL. -/
def tupleScan : Credentials → GoURL → Except CredErr (Option RepositoryCreds)
  | [], _ => .ok none
  | (storedRepoURL, creds) :: rest, repoURL =>
    match parseURL storedRepoURL with
    | none => .error (.unparsableStoredURL storedRepoURL)
    | some parsed =>
      if repoURL.scheme = parsed.scheme ∧ hostString repoURL = hostString parsed ∧
          usernameOf repoURL = usernameOf parsed then
        .ok (some creds)
      else tupleScan rest repoURL

/-- Embeds `Credentials.FindForRepo` (credentials.go lines 54-76): first an
exact match of the serialized URL against the stored key, then the tuple
scan. -/
def FindForRepo (credentials : Credentials) (repoURL : GoURL) :
    Except CredErr (Option RepositoryCreds) :=
  match lookupExact credentials (urlString repoURL) with
  | some creds => .ok (some creds)
  | none => tupleScan credentials repoURL

def tripleMatches (stored : String) (q : GoURL) : Bool :=
  match parseURL stored with
  | none => false
  | some p =>
    decide (q.scheme = p.scheme ∧ hostString q = hostString p ∧ usernameOf q = usernameOf p)

/-! ## Git loader (pkg/repository/git.go) -/

/-- The URL actually handed to the Git client by
`gitRepoChartLoader.cloneRepo` (git.go lines 54-90): parse, look up
credentials, and rewrite `ssh` to `https` (dropping userinfo and, via
`Hostname()`, any port) exactly when the matched credentials hold a
non-empty password and an empty identity. -/
def cloneURLFor (credentials : Credentials) (repoURL : String) :
    Except CredErr String :=
  match parseURL repoURL with
  | none => .error (.badCloneURL repoURL)
  | some parsedURL =>
    match FindForRepo credentials parsedURL with
    | .error e => .error e
    | .ok repoCreds =>
      match repoCreds with
      | some rc =>
        if parsedURL.scheme = "ssh" ∧ lookupCred rc "password" ≠ "" ∧
            lookupCred rc "identity" = "" then
          .ok (urlString { parsedURL with scheme := "https", port := none, user := none })
        else .ok repoURL
      | none => .ok repoURL

/-! ## Git reference normalization (pkg/repository/git.go lines 27-39) -/

structure GitRepositoryRef where
  branch : String
  tag : String
  semver : String
  name : String
  commit : String
  deriving DecidableEq, Repr

/-- Embeds `normalizeGitReference` verbatim: the original reference is kept
when it is non-nil and ANY of its fields is empty; otherwise (nil, or all
five fields non-empty) the result is a reference naming branch master. -/
def normalizeGitReference : Option GitRepositoryRef → GitRepositoryRef
  | some original =>
    if original.branch = "" ∨ original.tag = "" ∨ original.semver = "" ∨
        original.name = "" ∨ original.commit = "" then
      original
    else
      ⟨"master", "", "", "", ""⟩
  | none => ⟨"master", "", "", "", ""⟩

structure CheckoutStrategy where
  branch : String
  tag : String
  semver : String
  refName : String
  commit : String
  deriving DecidableEq, Repr

def emptyCheckout : CheckoutStrategy := ⟨"", "", "", "", ""⟩

/-- Embeds the checkout-strategy selection of `cloneRepo` (git.go lines
124-136): the zero-valued strategy is used when `spec.reference` is nil;
otherwise the normalized reference's fields are copied over. -/
def cloneCheckoutStrategy (reference : Option GitRepositoryRef) : CheckoutStrategy :=
  match reference with
  | none => emptyCheckout
  | some r =>
    let ref := normalizeGitReference (some r)
    ⟨ref.branch, ref.tag, ref.semver, ref.name, ref.commit⟩

def splitOnCharAux (sep : Char) : List Char → List Char → List (List Char)
  | [], acc => [acc.reverse]
  | c :: rest, acc =>
    if c = sep then acc.reverse :: splitOnCharAux sep rest []
    else splitOnCharAux sep rest (c :: acc)

/-- Split at every occurrence of `sep` (Go strings.Split). -/
def splitOnChar (sep : Char) (l : List Char) : List (List Char) :=
  splitOnCharAux sep l []

def digitsToNat (l : List Char) : Nat :=
  l.foldl (fun acc c => acc * 10 + (c.toNat - '0'.toNat)) 0

def noLeadingZero : List Char → Bool
  | c :: _ :: _ => !(c == '0')
  | _ => true

/-- A numeric core segment per StrictNewVersion: nonempty digits, no
leading zero. -/
def numSegOk (l : List Char) : Bool :=
  !l.isEmpty && l.all Char.isDigit && noLeadingZero l

def isIdentChar (c : Char) : Bool := c.isAlphanum || c = '-'

/-- A prerelease identifier: numeric (no leading zero) or alphanumeric;
identifiers starting with a hyphen are outside the embedded domain. -/
def preIdOk (l : List Char) : Bool :=
  !l.isEmpty && (match l with | '-' :: _ => false | _ => true) &&
    (if l.all Char.isDigit then noLeadingZero l else l.all isIdentChar)

def buildIdOk (l : List Char) : Bool :=
  !l.isEmpty && l.all isIdentChar

/-- A prerelease identifier, classified the way Masterminds' comparePrePart
classifies it via ParseInt: all-digit identifiers are numeric. -/
inductive PreId where
  | num (n : Nat)
  | str (s : String)
  deriving DecidableEq, Repr

def classifyPreId (l : List Char) : PreId :=
  if l.all Char.isDigit then .num (digitsToNat l) else .str (String.mk l)

structure SemVer where
  major : Nat
  minor : Nat
  patch : Nat
  pre : List PreId
  build : List String
  original : String
  deriving DecidableEq, Repr

/-- Embeds Masterminds `StrictNewVersion`: exactly `maj.min.patch`, with
optional `+build` split off first and `-prerelease` second. -/
def strictSemVer (l : List Char) : Option (Nat × Nat × Nat × List PreId × List String) :=
  match splitFirst '.' l with
  | none => none
  | some (majS, rest1) =>
    match splitFirst '.' rest1 with
    | none => none
    | some (minS, rest2) =>
      let bsplit :=
        match splitFirst '+' rest2 with
        | some (a, b) => (a, some b)
        | none => (rest2, none)
      let psplit :=
        match splitFirst '-' bsplit.1 with
        | some (a, b) => (a, some b)
        | none => (bsplit.1, none)
      if numSegOk majS && numSegOk minS && numSegOk psplit.1 &&
          (match psplit.2 with
           | some p => (splitOnChar '.' p).all preIdOk
           | none => true) &&
          (match bsplit.2 with
           | some b => (splitOnChar '.' b).all buildIdOk
           | none => true) then
        some (digitsToNat majS, digitsToNat minS, digitsToNat psplit.1,
          (psplit.2.map (fun p => (splitOnChar '.' p).map classifyPreId)).getD [],
          (bsplit.2.map (fun b => (splitOnChar '.' b).map String.mk)).getD [])
      else none

/-- Embeds fluxcd version.ParseVersion: strip one leading `v`, validate
strictly, keep the original tag string. -/
def parseVersion (tag : String) : Option SemVer :=
  let core := match tag.data with | 'v' :: rest => rest | l => l
  match strictSemVer core with
  | none => none
  | some (maj, minr, pat, pre, build) =>
    some ⟨maj, minr, pat, pre, build, tag⟩

def cmpNat (a b : Nat) : Int :=
  if a < b then -1 else if b < a then 1 else 0

/-- One prerelease identifier against another, per Masterminds
comparePrePart: numbers below strings, numbers numerically, strings
byte-wise. -/
def comparePreId : PreId → PreId → Int
  | .num a, .num b => cmpNat a b
  | .num _, .str _ => -1
  | .str _, .num _ => 1
  | .str a, .str b => if a < b then -1 else if b < a then 1 else 0

/-- Prerelease identifier lists, first difference decides; a missing
identifier compares below any present one (Masterminds pads with the empty
string). -/
def comparePreIds : List PreId → List PreId → Int
  | [], [] => 0
  | [], _ :: _ => -1
  | _ :: _, [] => 1
  | a :: as2, b :: bs =>
    if comparePreId a b = 0 then comparePreIds as2 bs else comparePreId a b

/-- Version precedence per Masterminds Compare: numeric triple, then a
release outranks any prerelease, then the prerelease lists. -/
def compareSemVer (v o : SemVer) : Int :=
  if cmpNat v.major o.major ≠ 0 then cmpNat v.major o.major
  else if cmpNat v.minor o.minor ≠ 0 then cmpNat v.minor o.minor
  else if cmpNat v.patch o.patch ≠ 0 then cmpNat v.patch o.patch
  else
    match v.pre, o.pre with
    | [], [] => 0
    | [], _ :: _ => 1
    | _ :: _, [] => -1
    | a :: as2, b :: bs => comparePreIds (a :: as2) (b :: bs)

inductive CmpOp where
  | eq | ne | gt | lt | ge | le
  deriving DecidableEq, Repr

inductive SemConstraint where
  | any
  | cmp (op : CmpOp) (ver : SemVer)
  deriving DecidableEq, Repr

/-- Embeds semver.NewConstraint on the modelled subset: `*`, or a single
comparison operator applied to a strict version. -/
def parseConstraint (s : String) : Option SemConstraint :=
  if s = "*" then some .any
  else
    let osplit :=
      match s.data with
      | '>' :: '=' :: rest => (CmpOp.ge, rest)
      | '<' :: '=' :: rest => (CmpOp.le, rest)
      | '!' :: '=' :: rest => (CmpOp.ne, rest)
      | '>' :: rest => (CmpOp.gt, rest)
      | '<' :: rest => (CmpOp.lt, rest)
      | '=' :: rest => (CmpOp.eq, rest)
      | rest => (CmpOp.eq, rest)
    match parseVersion (String.mk osplit.2) with
    | some v => some (.cmp osplit.1 v)
    | none => none

/-- Embeds the Masterminds check functions: a range constraint whose own
version carries no prerelease rejects every prerelease version (the
documented prerelease-skipping rule); `*` parses as a dirty `>=0.0.0` and
so also only matches release versions. -/
def checkConstraint (c : SemConstraint) (v : SemVer) : Bool :=
  match c with
  | .any => v.pre.isEmpty
  | .cmp op cv =>
    if v.pre.isEmpty = false ∧ cv.pre.isEmpty = true ∧ op ≠ CmpOp.ne then false
    else
      match op with
      | .eq => decide (compareSemVer v cv = 0)
      | .ne => decide (compareSemVer v cv ≠ 0)
      | .gt => decide (compareSemVer v cv > 0)
      | .lt => decide (compareSemVer v cv < 0)
      | .ge => decide (compareSemVer v cv ≥ 0)
      | .le => decide (compareSemVer v cv ≤ 0)

inductive OciErr where
  | badConstraint (spec : String)
  | noMatchingVersion (spec : String)
  | noTags
  deriving DecidableEq, Repr

/-- The element `sort.Sort(sort.Reverse(semver.Collection(vs)))` places
first: a maximal element, the earliest one among compare-ties. -/
def maxBySemVer : List SemVer → Option SemVer
  | [] => none
  | v :: rest =>
    match maxBySemVer rest with
    | none => some v
    | some m => if compareSemVer m v > 0 then some m else some v

/-- Embeds `getLatestMatchingVersion` (oci.go lines 72-109). -/
def getLatestMatchingVersion (tags : List String) (versionSpec : String) :
    Except OciErr String :=
  let versionString := if versionSpec = "" then "*" else versionSpec
  match parseConstraint versionString with
  | none => .error (.badConstraint versionSpec)
  | some c =>
    let matching := tags.filterMap (fun tag =>
      match parseVersion tag with
      | none => none
      | some v => if checkConstraint c v then some v else none)
    match maxBySemVer matching with
    | none => .error (.noMatchingVersion versionSpec)
    | some v => .ok v.original

/-- Embeds `ociRepoChartLoader.getChartVersion` (oci.go lines 111-139); the
`tags` argument stands for the registry client's tag listing. -/
def getChartVersion (tags : List String) (chartVersionSpec : String) :
    Except OciErr String :=
  if (parseVersion chartVersionSpec).isSome then .ok chartVersionSpec
  else if tags.isEmpty then .error .noTags
  else getLatestMatchingVersion tags chartVersionSpec

def preTail : List PreId → List PreId → Int
  | [], [] => 0
  | [], _ :: _ => 1
  | _ :: _, [] => -1
  | a :: as2, b :: bs => comparePreIds (a :: as2) (b :: bs)

/-! ## Pipeline documents and the two-pass expansion (repository.go).
`RNode` models the kyaml document fields the program reads: apiVersion,
kind, metadata.name, metadata.namespace (empty when unset, as
`GetNamespace` returns), the HelmRelease sourceRef, role-binding subject
references and an opaque remaining payload. -/

structure SourceRef where
  kind : Option String
  name : Option String
  nspace : Option String
  apiVersion : Option String
  deriving DecidableEq, Repr

structure RNode where
  apiVersion : String
  kind : String
  name : String
  nspace : String
  sourceRef : Option SourceRef
  subjects : List String
  body : String
  deriving DecidableEq, Repr

/-- Embeds yamlutil.GetGroup: the part before the first `/` of apiVersion,
or the empty string when there is no `/`. -/
def getGroup (apiVersion : String) : String :=
  match splitFirst '/' apiVersion.data with
  | none => ""
  | some (before, _) => String.mk before

inductive PErr where
  | missingSourceRefField (field : String)
  | findRepoFailed (nspace name : String) (inner : PErr)
  | missingChartRepo (nspace name : String)
  | renderFailed (detail : String)
  | expandFailed (nspace name : String) (inner : PErr)
  deriving DecidableEq, Repr

/-- Embeds `getRepositoryForHelmRelease` (repository.go lines 480-521):
read the sourceRef fields (kind and name are required; the namespace
defaults to the release's namespace; the apiVersion is compared only when
present) and return the first matching document, or none. -/
def getRepositoryForHelmRelease (nodes : List RNode) (helmRelease : RNode) :
    Except PErr (Option RNode) :=
  match helmRelease.sourceRef with
  | none => .error (.missingSourceRefField "kind")
  | some sr =>
    match sr.kind with
    | none => .error (.missingSourceRefField "kind")
    | some repoKind =>
      match sr.name with
      | none => .error (.missingSourceRefField "name")
      | some repoName =>
        let repoNamespace := sr.nspace.getD helmRelease.nspace
        let repoApiVersion := sr.apiVersion.getD ""
        .ok (nodes.find? (fun node =>
          node.kind == repoKind && node.name == repoName &&
          node.nspace == repoNamespace &&
          (repoApiVersion == "" || node.apiVersion == repoApiVersion)))

def isHelmRelease (node : RNode) : Bool :=
  getGroup node.apiVersion == "helm.toolkit.fluxcd.io" && node.kind == "HelmRelease"

def collectPairsAux (nodes : List RNode) :
    List RNode → Except PErr (List (RNode × Option RNode))
  | [] => .ok []
  | hr :: rest =>
    match getRepositoryForHelmRelease nodes hr with
    | .error e => .error (.findRepoFailed hr.nspace hr.name e)
    | .ok repo =>
      match collectPairsAux nodes rest with
      | .error e => .error e
      | .ok pairs => .ok ((hr, repo) :: pairs)

/-- Embeds `releaseRepoFilter.Filter` (repository.go lines 536-563): the
node list is returned unchanged, and the release/repository pairs are
collected on the side. -/
def releaseRepoFilterRun (nodes : List RNode) :
    Except PErr (List (RNode × Option RNode) × List RNode) :=
  match collectPairsAux nodes (nodes.filter isHelmRelease) with
  | .error e => .error e
  | .ok pairs => .ok (pairs, nodes)

/-- Cluster-scoped kinds per kustomize's builtin OpenAPI scope data, as
consulted by resid.Gvk.IsNamespaceableKind inside the namespace filter's
metaNamespaceHack. -/
def clusterScopedKinds : List String :=
  ["APIService", "CSIDriver", "CSINode", "CertificateSigningRequest",
   "ClusterRole", "ClusterRoleBinding", "ComponentStatus",
   "CustomResourceDefinition", "MutatingWebhookConfiguration", "Namespace",
   "Node", "PersistentVolume", "PodSecurityPolicy", "PriorityClass",
   "RuntimeClass", "SelfSubjectAccessReview", "SelfSubjectRulesReview",
   "StorageClass", "SubjectAccessReview", "TokenReview",
   "ValidatingWebhookConfiguration", "VolumeAttachment"]

def isNamespaceableKind (kind : String) : Bool :=
  !(clusterScopedKinds.contains kind)

/-- Embeds the kustomize `namespace.Filter` invocation of
expandHelmRelease (repository.go lines 462-477) with UnsetOnly=true and
SetRoleBindingSubjects=NoSubjects: metadata.namespace is set on
namespace-scoped documents whose namespace is empty; nothing else —
in particular no role-binding subject — is touched. -/
def assignNamespace (ns : String) (d : RNode) : RNode :=
  if isNamespaceableKind d.kind && d.nspace == "" then { d with nspace := ns } else d

def assignNamespaces (ns : String) (docs : List RNode) : List RNode :=
  docs.map (assignNamespace ns)

/-- Embeds `expandHelmRelease` (repository.go lines 325-478).  The chart
loading, value coalescing and template rendering (lines 353-460) are
abstracted into the `render` argument, which produces the parsed generated
documents in emission order; the function then fails on a missing
repository exactly as the source does, and applies the namespace filter to
the rendered documents. -/
def expandHelmRelease (render : RNode → RNode → Except PErr (List RNode))
    (releaseNode : RNode) (repoNode : Option RNode) : Except PErr (List RNode) :=
  match repoNode with
  | none => .error (.missingChartRepo releaseNode.nspace releaseNode.name)
  | some repo =>
    match render releaseNode repo with
    | .error e => .error e
    | .ok docs => .ok (assignNamespaces releaseNode.nspace docs)

def cmpChars : List Char → List Char → Int
  | [], [] => 0
  | [], _ :: _ => -1
  | _ :: _, [] => 1
  | a :: as, b :: bs =>
    if a.toNat < b.toNat then -1
    else if b.toNat < a.toNat then 1
    else cmpChars as bs

/-- Go `<`/`>` on strings compare lexicographically; `cmpStr a b` is the
three-way comparison the comparator builds from them. -/
def cmpStr (a b : String) : Int :=
  cmpChars a.data b.data

/-- Strict lexicographic string order: the relation Go's `<` denotes. -/
def strLt (a b : String) : Prop :=
  cmpStr a b = -1

/-- Embeds the comparison function passed to slices.SortStableFunc
(repository.go lines 625-658): kind, then apiVersion, then namespace, then
name, each by string order. -/
def cmpDocs (a b : RNode) : Int :=
  if cmpStr a.kind b.kind ≠ 0 then cmpStr a.kind b.kind
  else if cmpStr a.apiVersion b.apiVersion ≠ 0 then cmpStr a.apiVersion b.apiVersion
  else if cmpStr a.nspace b.nspace ≠ 0 then cmpStr a.nspace b.nspace
  else cmpStr a.name b.name

def insertDoc (x : RNode) : List RNode → List RNode
  | [] => [x]
  | y :: ys => if cmpDocs x y ≤ 0 then x :: y :: ys else y :: insertDoc x ys

/-- A stable sort by `cmpDocs`; models slices.SortStableFunc. -/
def sortDocs : List RNode → List RNode
  | [] => []
  | x :: xs => insertDoc x (sortDocs xs)

def collectExpanded (render : RNode → RNode → Except PErr (List RNode)) :
    List (RNode × Option RNode) → Except PErr (List RNode)
  | [] => .ok []
  | p :: ps =>
    match expandHelmRelease render p.1 p.2 with
    | .error e => .error (.expandFailed p.1.nspace p.1.name e)
    | .ok docs =>
      match collectExpanded render ps with
      | .error e => .error e
      | .ok more => .ok (docs ++ more)

/-- Embeds `releaseRepoRenderer.Filter` (repository.go lines 598-660):
expand every pair in order, stably sort the generated documents, and
append them to the input nodes. -/
def releaseRepoRendererRun (render : RNode → RNode → Except PErr (List RNode))
    (pairs : List (RNode × Option RNode)) (nodes : List RNode) :
    Except PErr (List RNode) :=
  match collectExpanded render pairs with
  | .error e => .error e
  | .ok gen => .ok (nodes ++ sortDocs gen)

/-- The two-filter kio pipeline of `ExpandHelmReleases` (repository.go
lines 680-711). -/
def pipelineRun (render : RNode → RNode → Except PErr (List RNode))
    (nodes : List RNode) : Except PErr (List RNode) :=
  match releaseRepoFilterRun nodes with
  | .error e => .error e
  | .ok pr => releaseRepoRendererRun render pr.1 pr.2

def docKey (d : RNode) : String × String × String × String :=
  (d.kind, d.apiVersion, d.nspace, d.name)

/-- Lexicographic order on the (kind, apiVersion, namespace, name) tuple,
as the specification words it. -/
def tupleLe (a b : RNode) : Prop :=
  strLt a.kind b.kind ∨ (a.kind = b.kind ∧ (strLt a.apiVersion b.apiVersion ∨
    (a.apiVersion = b.apiVersion ∧ (strLt a.nspace b.nspace ∨
      (a.nspace = b.nspace ∧ (strLt a.name b.name ∨ a.name = b.name))))))

def hrW : RNode :=
  { apiVersion := "helm.toolkit.fluxcd.io/v2", kind := "HelmRelease",
    name := "rel", nspace := "ns1",
    sourceRef := some ⟨some "HelmRepository", some "repo", none, none⟩,
    subjects := [], body := "release" }

def repoW : RNode :=
  { apiVersion := "source.toolkit.fluxcd.io/v1", kind := "HelmRepository",
    name := "repo", nspace := "ns1", sourceRef := none,
    subjects := [], body := "repository" }

def genA : RNode :=
  { apiVersion := "v1", kind := "ConfigMap", name := "a", nspace := "",
    sourceRef := none, subjects := [], body := "first" }

def genB : RNode :=
  { apiVersion := "v1", kind := "ConfigMap", name := "a", nspace := "",
    sourceRef := none, subjects := [], body := "second" }

def renderW : RNode → RNode → Except PErr (List RNode) :=
  fun hr repo => if hr.kind = "HelmRelease" ∧ repo.kind = "HelmRepository"
    then .ok [genA, genB] else .error (.renderFailed "unexpected pair")

def nodesW : List RNode := [hrW, repoW]

def outW : List RNode :=
  [hrW, repoW, { genA with nspace := "ns1" }, { genB with nspace := "ns1" }]

def srM : SourceRef := ⟨some "HelmRepository", some "missing", none, none⟩

def hrM : RNode :=
  { apiVersion := "helm.toolkit.fluxcd.io/v2", kind := "HelmRelease",
    name := "lonely", nspace := "ns2", sourceRef := some srM,
    subjects := [], body := "release" }

def clusterRoleW : RNode :=
  { apiVersion := "rbac.authorization.k8s.io/v1", kind := "ClusterRole",
    name := "admin", nspace := "", sourceRef := none,
    subjects := ["group:admins"], body := "rules" }

def renderCR : RNode → RNode → Except PErr (List RNode) :=
  fun _ _ => .ok [clusterRoleW]

def pathIsAbs (p : String) : Bool :=
  match p.data with
  | c :: _ => c == '/'
  | [] => false

/-- One step of Go `path.Clean`'s element processing: empty and `.`
elements vanish, `..` pops a non-`..` top (vanishing at the root when the
path is rooted), anything else is pushed. -/
def cleanPush (rooted : Bool) (stack : List (List Char)) (seg : List Char) :
    List (List Char) :=
  if seg = [] ∨ seg = ['.'] then stack
  else if seg = ['.', '.'] then
    match stack with
    | top :: rest => if top = ['.', '.'] then seg :: stack else rest
    | [] => if rooted then [] else [seg]
  else seg :: stack

def intercalateSlash : List (List Char) → List Char
  | [] => []
  | [s] => s
  | s :: rest => s ++ '/' :: intercalateSlash rest

/-- Go `path.Clean`. -/
def pathClean (p : String) : String :=
  if p = "" then "."
  else
    let rooted := pathIsAbs p
    let stack := ((splitOnChar '/' p.data).foldl (cleanPush rooted) []).reverse
    let body := intercalateSlash stack
    if rooted then String.mk ('/' :: body)
    else if body = [] then "." else String.mk body

/-- Go `path.Join` on two elements: drop empty elements, join the rest
with `/` and clean. -/
def pathJoin (a b : String) : String :=
  if a = "" ∧ b = "" then ""
  else if a = "" then pathClean b
  else if b = "" then pathClean a
  else pathClean (a ++ "/" ++ b)

/-- Embeds `joinPath` (repository.go lines 172-177). -/
def joinPath (a b : String) : String :=
  if pathIsAbs b then b else pathJoin a b

structure ChartDep where
  name : String
  version : String
  repository : String
  deriving DecidableEq, Repr

/-- A chart as dependency loading sees it: its metadata name, version and
dependency list. -/
structure ChartM where
  name : String
  version : String
  deps : List ChartDep
  deriving DecidableEq, Repr

/-- `chartContext` (repository.go lines 33-38) minus the loader, which is
carried alongside as a function (Go stores it as an interface field). -/
structure ChartCtx where
  localRepoPath : String
  chartName : String
  repoNode : Option RNode
  deriving DecidableEq, Repr

inductive DepErr where
  | loaderMissing (repoURL : String)
  | chartLoadError (detail : String)
  | normalizeFailed (name version : String)
  | getLoaderFailed (name version repoURL : String) (inner : DepErr)
  | loadFailed (name version repoURL : String) (inner : DepErr)
  deriving DecidableEq, Repr

/-- The shape of `repositoryLoader.loadRepositoryChart` (repository.go
lines 40-50): repo node, repo URL, parent context, chart name, chart
version. -/
def LoaderFn : Type :=
  Option RNode → String → Option ChartCtx → String → String → Except DepErr ChartM

/-- The outcome of `loadChartDependencies`: success, a returned error, or
a nil-pointer dereference (a panic, not an error value). -/
inductive DepResult where
  | ok
  | err (e : DepErr)
  | nilDeref
  deriving DecidableEq, Repr

/-- The `parsedURL.Host == ".."` fix-up (repository.go lines 273-277). -/
def dotDotRewrite (u : GoURL) : GoURL :=
  if hostString u = ".."
  then { u with host := "", port := none, path := pathJoin ".." u.path }
  else u

/-- Embeds the loop body of `loadChartDependencies` (repository.go lines
252-323).  A bundled dependency (empty repository) is skipped; the
repository URL is normalized (an error is returned on failure) and then
re-parsed with the parse error ignored, so a failed re-parse dereferences
the nil `parsedURL` — modelled as `.nilDeref`.  A dependency whose scheme
is `file` or empty calls `parentContext.loader` — dereferencing a nil
parent context is `.nilDeref` — while any other scheme obtains a fresh
loader for the URL and passes a nil parent context along. -/
def loadDepsAux (getLoader : String → Except DepErr LoaderFn)
    (parentCtx : Option (ChartCtx × LoaderFn)) :
    List ChartDep → DepResult
  | [] => .ok
  | dep :: rest =>
    if dep.repository = "" then loadDepsAux getLoader parentCtx rest
    else
      match normalizeURL dep.repository with
      | none => .err (.normalizeFailed dep.name dep.version)
      | some repoURL =>
        match parseURL repoURL with
        | none => .nilDeref
        | some parsed =>
          if (dotDotRewrite parsed).scheme = "file" ∨ (dotDotRewrite parsed).scheme = ""
          then
            match parentCtx with
            | none => .nilDeref
            | some (ctx, loader) =>
              match loader ctx.repoNode "" (some ctx)
                  (joinPath ctx.chartName (dotDotRewrite parsed).path) dep.version with
              | .error e => .err (.loadFailed dep.name dep.version repoURL e)
              | .ok _ => loadDepsAux getLoader parentCtx rest
          else
            match getLoader repoURL with
            | .error e => .err (.getLoaderFailed dep.name dep.version repoURL e)
            | .ok loader =>
              match loader none repoURL none dep.name dep.version with
              | .error e => .err (.loadFailed dep.name dep.version repoURL e)
              | .ok _ => loadDepsAux getLoader parentCtx rest

def loadChartDependencies (getLoader : String → Except DepErr LoaderFn)
    (parentChart : ChartM) (parentContext : Option (ChartCtx × LoaderFn)) :
    DepResult :=
  loadDepsAux getLoader parentContext parentChart.deps

/-- The dependency call made for charts loaded by URL from HTTP and OCI
repositories (helm.go line 208, oci.go line 297): the parent context
passed is nil. -/
def loadChartDependenciesByURL (getLoader : String → Except DepErr LoaderFn)
    (chart : ChartM) : DepResult :=
  loadChartDependencies getLoader chart none

def getLoaderW : String → Except DepErr LoaderFn :=
  fun url => .error (.loaderMissing url)

def loaderOkW : LoaderFn :=
  fun _ _ _ _ _ => .ok ⟨"sub", "1.2.3", []⟩

def ctxW : ChartCtx × LoaderFn := (⟨"/repo", "app", none⟩, loaderOkW)

def relDep : ChartDep := ⟨"sub", "1.2.3", "charts/sub"⟩

def chartRel : ChartM := ⟨"parent", "0.1.0", [relDep]⟩

theorem splitFirst_of_not_mem (sep : Char) :
    ∀ l : List Char, sep ∉ l → splitFirst sep l = none := by
  intro l
  induction l with
  | nil => intro _; rfl
  | cons c rest ih =>
    intro h
    have hc : ¬(c = sep) := by
      intro hEq; exact h (hEq ▸ List.mem_cons_self c rest)
    have hr : sep ∉ rest := fun hm => h (List.mem_cons_of_mem c hm)
    simp [splitFirst, hc, ih hr]

theorem splitFirst_append (sep : Char) :
    ∀ l r : List Char, sep ∉ l → splitFirst sep (l ++ sep :: r) = some (l, r) := by
  intro l
  induction l with
  | nil => intro r _; simp [splitFirst]
  | cons c rest ih =>
    intro r h
    have hc : ¬(c = sep) := by
      intro hEq; exact h (hEq ▸ List.mem_cons_self c rest)
    have hr : sep ∉ rest := fun hm => h (List.mem_cons_of_mem c hm)
    simp [splitFirst, hc, ih r hr]

theorem splitFirst_eq_append (sep : Char) :
    ∀ l a b : List Char, splitFirst sep l = some (a, b) → l = a ++ sep :: b := by
  intro l
  induction l with
  | nil => intro a b h; simp [splitFirst] at h
  | cons c rest ih =>
    intro a b h
    simp only [splitFirst] at h
    by_cases hc : c = sep
    · rw [if_pos hc] at h
      simp only [Option.some.injEq, Prod.mk.injEq] at h
      obtain ⟨ha, hb⟩ := h
      subst ha; subst hb; subst hc
      simp
    · rw [if_neg hc] at h
      cases hrec : splitFirst sep rest with
      | none => rw [hrec] at h; simp at h
      | some p =>
        obtain ⟨a2, b2⟩ := p
        rw [hrec] at h
        simp only [Option.some.injEq, Prod.mk.injEq] at h
        obtain ⟨ha, hb⟩ := h
        subst ha; subst hb
        simp [ih a2 b2 hrec]

theorem splitFirst_left_not_mem (sep : Char) :
    ∀ l a b : List Char, splitFirst sep l = some (a, b) → sep ∉ a := by
  intro l
  induction l with
  | nil => intro a b h; simp [splitFirst] at h
  | cons c rest ih =>
    intro a b h
    simp only [splitFirst] at h
    by_cases hc : c = sep
    · rw [if_pos hc] at h
      simp only [Option.some.injEq, Prod.mk.injEq] at h
      obtain ⟨ha, _⟩ := h
      subst ha
      simp
    · rw [if_neg hc] at h
      cases hrec : splitFirst sep rest with
      | none => rw [hrec] at h; simp at h
      | some p =>
        obtain ⟨a2, b2⟩ := p
        rw [hrec] at h
        simp only [Option.some.injEq, Prod.mk.injEq] at h
        obtain ⟨ha, _⟩ := h
        subst ha
        intro hmem
        rcases List.mem_cons.mp hmem with hEq | hmem2
        · exact hc hEq.symm
        · exact ih a2 b2 hrec hmem2

theorem splitScheme_append (s r : List Char) (h : ':' ∉ s) :
    splitScheme (s ++ ':' :: '/' :: '/' :: r) = some (s, r) := by
  simp [splitScheme, splitFirst_append ':' s ('/' :: '/' :: r) h]

theorem splitScheme_of_not_mem (l : List Char) (h : ':' ∉ l) :
    splitScheme l = none := by
  simp [splitScheme, splitFirst_of_not_mem ':' l h]

theorem hasChar_append (x : Char) (a b : List Char) :
    hasChar x (a ++ b) = (hasChar x a || hasChar x b) := by
  simp [hasChar]

theorem hasChar_eq_false_iff (x : Char) (l : List Char) :
    hasChar x l = false ↔ x ∉ l := by
  constructor
  · intro h hm
    have : l.any (fun c => c = x) = true := by
      exact List.any_eq_true.mpr ⟨x, hm, by simp⟩
    rw [hasChar] at h
    rw [h] at this
    exact Bool.false_ne_true this
  · intro h
    rw [hasChar]
    by_cases ha : l.any (fun c => c = x) = true
    · exfalso
      obtain ⟨y, hy, hyx⟩ := List.any_eq_true.mp ha
      simp at hyx
      exact h (hyx ▸ hy)
    · exact Bool.eq_false_iff.mpr ha

theorem not_mem_of_all_ne (x : Char) (l : List Char) (p : Char → Bool)
    (hall : l.all p = true) (hx : p x = false) : x ∉ l := by
  intro hm
  have := List.all_eq_true.mp hall x hm
  rw [hx] at this
  exact Bool.false_ne_true this

theorem schemeOk_not_mem (sch : List Char) (h : schemeOk sch = true) (x : Char)
    (h1 : x.isAlpha = false) (h2 : isSchemeTail x = false) : x ∉ sch := by
  match sch with
  | [] => simp
  | c :: rest =>
    simp only [schemeOk, Bool.and_eq_true] at h
    intro hm
    rcases List.mem_cons.mp hm with hEq | hmem
    · subst hEq
      rw [h.1] at h1
      exact absurd h1 (by simp)
    · exact not_mem_of_all_ne x rest isSchemeTail h.2 h2 hmem 

theorem compOk_not_mem (l : List Char) (h : compOk l = true) :
    '@' ∉ l ∧ ':' ∉ l ∧ '/' ∉ l := by
  refine ⟨?_, ?_, ?_⟩ <;>
    exact not_mem_of_all_ne _ l _ h (by decide)

theorem noDelims_not_mem (l : List Char) (h : noDelims l = true) :
    '?' ∉ l ∧ '#' ∉ l := by
  refine ⟨?_, ?_⟩ <;>
    exact not_mem_of_all_ne _ l _ h (by decide)

theorem portOk_not_mem (l : List Char) (h : portOk l = true) (x : Char)
    (hx : x.isDigit = false) : x ∉ l := by
  rw [portOk, Bool.and_eq_true] at h
  exact not_mem_of_all_ne x l _ h.2 hx

theorem and_true_left (a b : Bool) (h : (a && b) = true) : a = true := by
  rw [Bool.and_eq_true] at h; exact h.1

theorem and_true_right (a b : Bool) (h : (a && b) = true) : b = true := by
  rw [Bool.and_eq_true] at h; exact h.2

theorem and_eq_true_of (a b : Bool) (h1 : a = true) (h2 : b = true) : (a && b) = true := by
  rw [h1, h2]; rfl

theorem not_mem_portPart (portD : Option (List Char)) (hPort : optPortOk portD = true)
    (x : Char) (hx1 : x ≠ ':') (hx2 : x.isDigit = false) : x ∉ portPart portD := by
  cases portD with
  | some p =>
    simp only [optPortOk] at hPort
    intro hm
    rcases List.mem_cons.mp hm with hEq | hmem
    · exact hx1 hEq
    · exact portOk_not_mem p hPort x hx2 hmem
  | none => simp [portPart]

theorem parseHostPort_rt (user : Option (List Char)) (hostD : List Char)
    (portD : Option (List Char))
    (hUser : optUserOk user = true)
    (hHc : compOk hostD = true) (hHn : noDelims hostD = true)
    (hPort : optPortOk portD = true) :
    parseHostPort user (hostD ++ portPart portD) =
      some (user.map String.mk, String.mk hostD, portD.map String.mk) := by
  have hHost : (compOk hostD && noDelims hostD) = true := and_eq_true_of _ _ hHc hHn
  have hcolon : ':' ∉ hostD :=
    (compOk_not_mem hostD hHc).2.1
  cases portD with
  | some p =>
    have hsp : splitFirst ':' (hostD ++ portPart (some p)) = some (hostD, p) := by
      rw [show portPart (some p) = ':' :: p from rfl]
      exact splitFirst_append ':' hostD p hcolon
    simp only [parseHostPort, hsp]
    simp [mkAuthority, hUser, hHost, hPort]
  | none =>
    have hsp : splitFirst ':' (hostD ++ portPart none) = none := by
      rw [show portPart none = ([] : List Char) from rfl, List.append_nil]
      exact splitFirst_of_not_mem ':' hostD hcolon
    simp only [parseHostPort, hsp]
    rw [show hostD ++ portPart none = hostD from by simp [portPart]]
    simp [mkAuthority, hUser, hHost, hPort]

theorem parseAuthority_rt (userD : Option (List Char)) (hostD : List Char)
    (portD : Option (List Char))
    (hUser : optUserOk userD = true)
    (hHc : compOk hostD = true) (hHn : noDelims hostD = true)
    (hPort : optPortOk portD = true) :
    parseAuthority (userPart userD ++ (hostD ++ portPart portD)) =
      some (userD.map String.mk, String.mk hostD, portD.map String.mk) := by
  cases userD with
  | some usr =>
    have husr : '@' ∉ usr := by
      simp only [optUserOk] at hUser
      exact (compOk_not_mem usr (and_true_left _ _ hUser)).1
    rw [parseAuthority]
    rw [show userPart (some usr) ++ (hostD ++ portPart portD) =
          usr ++ '@' :: (hostD ++ portPart portD) from by simp [userPart]]
    rw [splitFirst_append '@' usr _ husr]
    exact parseHostPort_rt (some usr) hostD portD hUser hHc hHn hPort
  | none =>
    have hhost : '@' ∉ hostD := (compOk_not_mem hostD hHc).1
    have hport : '@' ∉ portPart portD :=
      not_mem_portPart portD hPort '@' (by decide) (by decide)
    have hall : '@' ∉ hostD ++ portPart portD := by
      intro hm
      rcases List.mem_append.mp hm with hmem | hmem
      · exact hhost hmem
      · exact hport hmem
    rw [parseAuthority]
    rw [show userPart none ++ (hostD ++ portPart portD) = hostD ++ portPart portD from by
      simp [userPart]]
    rw [splitFirst_of_not_mem '@' _ hall]
    exact parseHostPort_rt none hostD portD hUser hHc hHn hPort

theorem bool_not_true (b : Bool) (h : (!b) = true) : b = false := by
  cases b
  · rfl
  · exact absurd h (by decide)

theorem not_mem_userPart (ud : Option (List Char)) (hu : optUserOk ud = true)
    (x : Char) (hxa : x ≠ '@')
    (hx : ((x ≠ '@' && x ≠ ':' && x ≠ '/') = false) ∨ ((x ≠ '?' && x ≠ '#') = false)) :
    x ∉ userPart ud := by
  cases ud with
  | none => simp [userPart]
  | some us =>
    simp only [optUserOk, Bool.and_eq_true] at hu
    intro hm
    simp only [userPart] at hm
    rcases List.mem_append.mp hm with hmem | hmem
    · rcases hx with hx | hx
      · exact not_mem_of_all_ne x us _ hu.1 hx hmem
      · exact not_mem_of_all_ne x us _ hu.2 hx hmem
    · exact hxa (List.mem_singleton.mp hmem)

theorem not_mem_compND (l : List Char) (hc : compOk l = true) (hn : noDelims l = true)
    (x : Char)
    (hx : ((x ≠ '@' && x ≠ ':' && x ≠ '/') = false) ∨ ((x ≠ '?' && x ≠ '#') = false)) :
    x ∉ l := by
  rcases hx with hx | hx
  · exact not_mem_of_all_ne x l _ hc hx
  · exact not_mem_of_all_ne x l _ hn hx

theorem not_mem_noDelims (l : List Char) (hc : noDelims l = true)
    (x : Char) (hx : (x ≠ '?' && x ≠ '#') = false) : x ∉ l :=
  not_mem_of_all_ne x l _ hc hx

/-- First stage of the round trip: the query split recovers the query. -/
theorem rawParseURL_split (core : List Char) (qd : Option (List Char))
    (h1 : '#' ∉ core) (h2 : '?' ∉ core) (h3 : '#' ∉ queryPart qd) :
    rawParseURL (core ++ queryPart qd) = parseNoQuery core qd := by
  have hhash : hasChar '#' (core ++ queryPart qd) = false := by
    rw [hasChar_eq_false_iff]
    intro hm
    rcases List.mem_append.mp hm with hmem | hmem
    · exact h1 hmem
    · exact h3 hmem
  cases qd with
  | some q =>
    have hsp : splitFirst '?' (core ++ queryPart (some q)) = some (core, q) := by
      rw [show queryPart (some q) = '?' :: q from rfl]
      exact splitFirst_append '?' core q h2
    simp only [rawParseURL, hhash, Bool.false_eq_true, if_false, hsp]
  | none =>
    have hsp : splitFirst '?' (core ++ queryPart none) = none := by
      rw [show queryPart none = ([] : List Char) from rfl, List.append_nil]
      exact splitFirst_of_not_mem '?' core h2
    simp only [rawParseURL, hhash, Bool.false_eq_true, if_false, hsp]
    rw [show core ++ queryPart none = core from by simp [queryPart]]

/-- Round trip for the scheme-ful half of the grammar. -/
theorem parseNoQuery_rt (schD : List Char) (ud : Option (List Char)) (hostD : List Char)
    (pd : Option (List Char)) (pathD : List Char) (qd : Option (List Char))
    (hso : schemeOk schD = true) (huo : optUserOk ud = true)
    (hHc : compOk hostD = true) (hHn : noDelims hostD = true)
    (hpo : optPortOk pd = true)
    (hea : emptyOrAbs pathD = true) :
    parseNoQuery (schD ++ ':' :: '/' :: '/' ::
        (userPart ud ++ (hostD ++ portPart pd) ++ pathD)) qd =
      some { scheme := String.mk schD, user := ud.map String.mk, host := String.mk hostD,
             port := pd.map String.mk, path := String.mk pathD,
             query := qd.map String.mk } := by
  have hns : ':' ∉ schD := schemeOk_not_mem schD hso ':' (by decide) (by decide)
  have h1 := splitScheme_append schD
    (userPart ud ++ (hostD ++ portPart pd) ++ pathD) hns
  have hslash : '/' ∉ userPart ud ++ (hostD ++ portPart pd) := by
    intro hm
    rcases List.mem_append.mp hm with hmem | hmem
    · exact not_mem_userPart _ huo '/' (by decide) (Or.inl (by decide)) hmem
    · rcases List.mem_append.mp hmem with hmem2 | hmem2
      · exact not_mem_compND _ hHc hHn '/' (Or.inl (by decide)) hmem2
      · exact not_mem_portPart _ hpo '/' (by decide) (by decide) hmem2
  cases pathD with
  | nil =>
    have h2 : splitFirst '/' (userPart ud ++ (hostD ++ portPart pd) ++ ([] : List Char)) =
        none := by
      rw [List.append_nil]
      exact splitFirst_of_not_mem '/' _ hslash
    simp only [parseNoQuery, h1, hso, if_true]
    simp only [h2]
    rw [show userPart ud ++ (hostD ++ portPart pd) ++ ([] : List Char) =
        userPart ud ++ (hostD ++ portPart pd) from by simp]
    rw [mkSchemeURL, parseAuthority_rt _ _ _ huo hHc hHn hpo]
  | cons c p2 =>
    have hc : c = '/' := by
      by_cases hc2 : c = '/'
      · exact hc2
      · exfalso
        rw [show emptyOrAbs (c :: p2) = (c == '/') from rfl] at hea
        exact hc2 (by simpa using hea)
    subst hc
    have h2 : splitFirst '/' (userPart ud ++ (hostD ++ portPart pd) ++ ('/' :: p2)) =
        some (userPart ud ++ (hostD ++ portPart pd), p2) :=
      splitFirst_append '/' _ p2 hslash
    simp only [parseNoQuery, h1, hso, if_true]
    simp only [h2]
    rw [mkSchemeURL, parseAuthority_rt _ _ _ huo hHc hHn hpo]

/-- Serialization followed by parsing is the identity on well-formed URL
records. -/
theorem rawParseURL_urlChars (u : GoURL) (h : wfURL u = true) :
    rawParseURL (urlChars u) = some u := by
  obtain ⟨sch, user, host, port, path, query⟩ := u
  by_cases hsch : sch = ""
  · subst hsch
    rw [wfURL, if_pos rfl, wfRel] at h
    simp only [Bool.and_eq_true] at h
    obtain ⟨⟨⟨⟨hu, hh⟩, hp⟩, hrel⟩, hq⟩ := h
    have hu2 : user = none := by
      cases user with
      | none => rfl
      | some x => exact absurd hu (by simp [isNoneStr])
    have hp2 : port = none := by
      cases port with
      | none => rfl
      | some x => exact absurd hp (by simp [isNoneStr])
    have hh2 : host = "" := of_decide_eq_true hh
    subst hu2; subst hp2; subst hh2
    rw [relPathOk, Bool.and_eq_true, Bool.and_eq_true] at hrel
    obtain ⟨⟨hcolon, hnd⟩, hss⟩ := hrel
    have hcolon2 : hasChar ':' path.data = false := bool_not_true _ hcolon
    have hss2 : startsSlashSlash path.data = false := bool_not_true _ hss
    have hcore : urlChars ⟨"", none, "", none, path, query⟩ =
        path.data ++ queryPart (query.map String.data) := by
      simp [urlChars, hostChars, userPart, portPart]
    rw [hcore, rawParseURL_split]
    · rw [parseNoQuery]
      rw [splitScheme_of_not_mem path.data ((hasChar_eq_false_iff ':' path.data).mp hcolon2)]
      rw [if_neg (by rw [hcolon2]; exact Bool.false_ne_true)]
      rw [if_neg (by rw [hss2]; exact Bool.false_ne_true)]
      cases query with
      | none => rfl
      | some qs => rfl
    · exact not_mem_noDelims path.data hnd '#' (by decide)
    · exact not_mem_noDelims path.data hnd '?' (by decide)
    · cases query with
      | none => simp [queryPart]
      | some qs =>
        rw [queryOk] at hq
        have hq2 := bool_not_true _ hq
        intro hm
        rw [show queryPart ((some qs).map String.data) = '?' :: qs.data from rfl] at hm
        rcases List.mem_cons.mp hm with hEq | hmem
        · exact absurd hEq (by decide)
        · exact (hasChar_eq_false_iff '#' qs.data).mp hq2 hmem
  · rw [wfURL, if_neg hsch, wfSch] at h
    simp only [Bool.and_eq_true] at h
    obtain ⟨⟨⟨⟨⟨hso, huo⟩, hhn⟩, hpo⟩, hap⟩, hq⟩ := h
    obtain ⟨hHc, hHn⟩ := hhn
    rw [absPathOk, Bool.and_eq_true] at hap
    obtain ⟨hea, hndp⟩ := hap
    have hcore : urlChars ⟨sch, user, host, port, path, query⟩ =
        (sch.data ++ ':' :: '/' :: '/' ::
          (userPart (user.map String.data) ++ (host.data ++ portPart (port.map String.data)) ++
            path.data)) ++ queryPart (query.map String.data) := by
      simp [urlChars, hostChars, userPart, portPart, if_neg hsch]
    have hqmark : '?' ∉ sch.data ++ ':' :: '/' :: '/' ::
        (userPart (user.map String.data) ++ (host.data ++ portPart (port.map String.data)) ++
          path.data) := by
      intro hm
      rcases List.mem_append.mp hm with hmem | hmem
      · exact schemeOk_not_mem sch.data hso '?' (by decide) (by decide) hmem
      · rcases List.mem_cons.mp hmem with hEq | hmem
        · exact absurd hEq (by decide)
        · rcases List.mem_cons.mp hmem with hEq | hmem
          · exact absurd hEq (by decide)
          · rcases List.mem_cons.mp hmem with hEq | hmem
            · exact absurd hEq (by decide)
            · rcases List.mem_append.mp hmem with hmem2 | hmem2
              · rcases List.mem_append.mp hmem2 with hmem3 | hmem3
                · exact not_mem_userPart _ huo '?' (by decide) (Or.inr (by decide)) hmem3
                · rcases List.mem_append.mp hmem3 with hmem4 | hmem4
                  · exact not_mem_compND _ hHc hHn '?' (Or.inr (by decide)) hmem4
                  · exact not_mem_portPart _ hpo '?' (by decide) (by decide) hmem4
              · exact not_mem_noDelims path.data hndp '?' (by decide) hmem2
    have hhash : '#' ∉ sch.data ++ ':' :: '/' :: '/' ::
        (userPart (user.map String.data) ++ (host.data ++ portPart (port.map String.data)) ++
          path.data) := by
      intro hm
      rcases List.mem_append.mp hm with hmem | hmem
      · exact schemeOk_not_mem sch.data hso '#' (by decide) (by decide) hmem
      · rcases List.mem_cons.mp hmem with hEq | hmem
        · exact absurd hEq (by decide)
        · rcases List.mem_cons.mp hmem with hEq | hmem
          · exact absurd hEq (by decide)
          · rcases List.mem_cons.mp hmem with hEq | hmem
            · exact absurd hEq (by decide)
            · rcases List.mem_append.mp hmem with hmem2 | hmem2
              · rcases List.mem_append.mp hmem2 with hmem3 | hmem3
                · exact not_mem_userPart _ huo '#' (by decide) (Or.inr (by decide)) hmem3
                · rcases List.mem_append.mp hmem3 with hmem4 | hmem4
                  · exact not_mem_compND _ hHc hHn '#' (Or.inr (by decide)) hmem4
                  · exact not_mem_portPart _ hpo '#' (by decide) (by decide) hmem4
              · exact not_mem_noDelims path.data hndp '#' (by decide) hmem2
    have hq3 : '#' ∉ queryPart (query.map String.data) := by
      cases query with
      | none => simp [queryPart]
      | some qs =>
        rw [queryOk] at hq
        have hq2 := bool_not_true _ hq
        intro hm
        rw [show queryPart ((some qs).map String.data) = '?' :: qs.data from rfl] at hm
        rcases List.mem_cons.mp hm with hEq | hmem
        · exact absurd hEq (by decide)
        · exact (hasChar_eq_false_iff '#' qs.data).mp hq2 hmem
    rw [hcore, rawParseURL_split _ _ hhash hqmark hq3]
    rw [parseNoQuery_rt sch.data (user.map String.data) host.data (port.map String.data)
      path.data (query.map String.data) hso huo hHc hHn hpo hea]
    cases user <;> cases port <;> cases query <;> rfl

theorem parseURLChars_wf (cs : List Char) (u : GoURL) (h : parseURLChars cs = some u) :
    wfURL u = true := by
  rw [parseURLChars] at h
  cases hr : rawParseURL cs with
  | none => rw [hr] at h; simp [Option.filter] at h
  | some v =>
    rw [hr] at h
    simp only [Option.filter] at h
    by_cases hw : wfURL v = true
    · rw [if_pos hw] at h
      cases h
      exact hw
    · rw [if_neg hw] at h
      simp at h

theorem parseURLChars_of_wf (u : GoURL) (h : wfURL u = true) :
    parseURLChars (urlChars u) = some u := by
  rw [parseURLChars, rawParseURL_urlChars u h]
  simp [Option.filter, h]

theorem mem_takeWhile_pred (p : Char → Bool) :
    ∀ (l : List Char) (x : Char), x ∈ l.takeWhile p → p x = true := by
  intro l
  induction l with
  | nil => intro x h; simp [List.takeWhile] at h
  | cons c cs ih =>
    intro x h
    rw [List.takeWhile] at h
    cases hp : p c with
    | false => rw [hp] at h; simp at h
    | true =>
      rw [hp] at h
      rcases List.mem_cons.mp h with hEq | hm
      · rw [hEq]; exact hp
      · exact ih x hm

theorem dropWhile_idem (p : Char → Bool) :
    ∀ l : List Char, (l.dropWhile p).dropWhile p = l.dropWhile p := by
  intro l
  induction l with
  | nil => rfl
  | cons c cs ih =>
    rw [List.dropWhile]
    cases hp : p c with
    | false => simp [List.dropWhile, hp]
    | true => exact ih

theorem takeWhile_dropWhile_nil (p : Char → Bool) :
    ∀ l : List Char, (l.dropWhile p).takeWhile p = [] := by
  intro l
  induction l with
  | nil => rfl
  | cons c cs ih =>
    rw [List.dropWhile]
    cases hp : p c with
    | false => simp [List.takeWhile, hp]
    | true => exact ih

theorem dropWhile_head_not (p : Char → Bool) :
    ∀ (l : List Char) (c : Char) (rest : List Char),
      l.dropWhile p = c :: rest → p c = false := by
  intro l
  induction l with
  | nil => intro c rest h; simp [List.dropWhile] at h
  | cons x xs ih =>
    intro c rest h
    rw [List.dropWhile] at h
    cases hp : p x with
    | false =>
      rw [hp] at h
      injection h with h1 _
      rw [← h1]; exact hp
    | true =>
      rw [hp] at h
      exact ih c rest h

theorem trim_decomp (l : List Char) :
    l = trimRightSlashes l ++ (l.reverse.takeWhile (fun c => c = '/')).reverse ∧
      ∀ c ∈ (l.reverse.takeWhile (fun c => c = '/')).reverse, c = '/' := by
  constructor
  · have h := (List.takeWhile_append_dropWhile (p := fun c => c = '/') (l := l.reverse)).symm
    calc l = l.reverse.reverse := by rw [List.reverse_reverse]
    _ = (l.reverse.takeWhile (fun c => c = '/') ++
          l.reverse.dropWhile (fun c => c = '/')).reverse := by rw [← h]
    _ = trimRightSlashes l ++ (l.reverse.takeWhile (fun c => c = '/')).reverse := by
          rw [List.reverse_append]; rfl
  · intro c hm
    have hm2 : c ∈ l.reverse.takeWhile (fun c => c = '/') := List.mem_reverse.mp hm
    have := mem_takeWhile_pred _ _ c hm2
    exact of_decide_eq_true this

theorem trim_isPrefix (l : List Char) : trimRightSlashes l <+: l :=
  ⟨(l.reverse.takeWhile (fun c => c = '/')).reverse, (trim_decomp l).1.symm⟩

theorem trim_not_mem (l : List Char) (x : Char) (h : x ∉ l) :
    x ∉ trimRightSlashes l := fun hm => h ((trim_isPrefix l).sublist.subset hm)

theorem trim_all (l : List Char) (p : Char → Bool) (h : l.all p = true) :
    (trimRightSlashes l).all p = true := by
  rw [List.all_eq_true] at h ⊢
  intro x hm
  exact h x ((trim_isPrefix l).sublist.subset hm)

theorem trailing_trim (l : List Char) : trailingSlashCount (trimRightSlashes l) = 0 := by
  rw [trailingSlashCount, trimRightSlashes, List.reverse_reverse,
    takeWhile_dropWhile_nil]
  rfl

theorem trailing_trim_slash (l : List Char) :
    trailingSlashCount (trimRightSlashes l ++ ['/']) = 1 := by
  rw [trailingSlashCount, List.reverse_append]
  rw [show (['/'] : List Char).reverse = ['/'] from rfl]
  rw [show (['/'] : List Char) ++ (trimRightSlashes l).reverse =
    '/' :: (trimRightSlashes l).reverse from rfl]
  rw [List.takeWhile]
  rw [show (decide ('/' = '/')) = true from rfl]
  rw [trimRightSlashes, List.reverse_reverse, takeWhile_dropWhile_nil]
  rfl

theorem trim_append_slash (l : List Char) :
    trimRightSlashes (l ++ ['/']) = trimRightSlashes l := by
  rw [trimRightSlashes, trimRightSlashes, List.reverse_append]
  rw [show (['/'] : List Char).reverse = ['/'] from rfl]
  rw [show (['/'] : List Char) ++ l.reverse = '/' :: l.reverse from rfl]
  rw [List.dropWhile]
  rw [show (decide ('/' = '/')) = true from rfl]

theorem trim_idem (l : List Char) :
    trimRightSlashes (trimRightSlashes l) = trimRightSlashes l := by
  rw [trimRightSlashes, trimRightSlashes, List.reverse_reverse, dropWhile_idem]

theorem trim_ne_single_slash (l : List Char) : trimRightSlashes l ≠ ['/'] := by
  intro h
  have h2 : (trimRightSlashes l).reverse = ['/'] := by rw [h]; rfl
  rw [trimRightSlashes, List.reverse_reverse] at h2
  have := dropWhile_head_not (fun c => c = '/') l.reverse '/' [] h2
  simp at this

theorem trim_emptyOrAbs (l : List Char) (h : emptyOrAbs l = true) :
    emptyOrAbs (trimRightSlashes l) = true := by
  cases htrim : trimRightSlashes l with
  | nil => rfl
  | cons c rest =>
    obtain ⟨t, ht⟩ := trim_isPrefix l
    rw [htrim] at ht
    rw [← ht] at h
    rw [show (c :: rest) ++ t = c :: (rest ++ t) from rfl] at h
    rw [show emptyOrAbs (c :: (rest ++ t)) = (c == '/') from rfl] at h
    rw [show emptyOrAbs (c :: rest) = (c == '/') from rfl]
    exact h

theorem trim_startsSS (l : List Char) (h : startsSlashSlash l = false) :
    startsSlashSlash (trimRightSlashes l) = false := by
  cases htrim : trimRightSlashes l with
  | nil => rfl
  | cons c rest =>
    cases rest with
    | nil => rfl
    | cons c2 rest2 =>
      obtain ⟨t, ht⟩ := trim_isPrefix l
      rw [htrim] at ht
      rw [← ht] at h
      rw [show (c :: c2 :: rest2) ++ t = c :: c2 :: (rest2 ++ t) from rfl] at h
      rw [show startsSlashSlash (c :: c2 :: (rest2 ++ t)) =
        (c == '/' && c2 == '/') from rfl] at h
      rw [show startsSlashSlash (c :: c2 :: rest2) = (c == '/' && c2 == '/') from rfl]
      exact h

theorem emptyOrAbs_append_slash (x : List Char) (h : emptyOrAbs x = true) :
    emptyOrAbs (x ++ ['/']) = true := by
  cases x with
  | nil => rfl
  | cons c rest =>
    rw [show (c :: rest) ++ ['/'] = c :: (rest ++ ['/']) from rfl]
    rw [show emptyOrAbs (c :: (rest ++ ['/'])) = (c == '/') from rfl]
    rw [show emptyOrAbs (c :: rest) = (c == '/') from rfl] at h
    exact h

theorem ss_append_slash (x : List Char) (hss : startsSlashSlash x = false)
    (hne : x ≠ ['/']) : startsSlashSlash (x ++ ['/']) = false := by
  cases x with
  | nil => rfl
  | cons c rest =>
    cases rest with
    | nil =>
      rw [show (([c] : List Char) ++ ['/']) = [c, '/'] from rfl]
      rw [show startsSlashSlash [c, '/'] = (c == '/' && '/' == '/') from rfl]
      have hc : ¬(c = '/') := fun hEq => hne (by rw [hEq])
      simp [hc]
    | cons c2 rest2 =>
      rw [show ((c :: c2 :: rest2) ++ ['/']) = c :: c2 :: (rest2 ++ ['/']) from rfl]
      rw [show startsSlashSlash (c :: c2 :: (rest2 ++ ['/'])) =
        (c == '/' && c2 == '/') from rfl]
      rw [show startsSlashSlash (c :: c2 :: rest2) = (c == '/' && c2 == '/') from rfl] at hss
      exact hss

theorem hasChar_trim (x : Char) (l : List Char) (h : hasChar x l = false) :
    hasChar x (trimRightSlashes l) = false := by
  rw [hasChar_eq_false_iff] at h ⊢
  exact trim_not_mem l x h

theorem relPathOk_trim (l : List Char) (h : relPathOk l = true) :
    relPathOk (trimRightSlashes l) = true := by
  rw [relPathOk, Bool.and_eq_true, Bool.and_eq_true] at h
  obtain ⟨⟨h1, h2⟩, h3⟩ := h
  rw [relPathOk]
  simp only [Bool.and_eq_true]
  refine ⟨⟨?_, ?_⟩, ?_⟩
  · rw [hasChar_trim ':' l (bool_not_true _ h1)]; rfl
  · exact trim_all l _ h2
  · rw [trim_startsSS l (bool_not_true _ h3)]; rfl

theorem relPathOk_trim_slash (l : List Char) (h : relPathOk l = true) :
    relPathOk (trimRightSlashes l ++ ['/']) = true := by
  rw [relPathOk, Bool.and_eq_true, Bool.and_eq_true] at h
  obtain ⟨⟨h1, h2⟩, h3⟩ := h
  rw [relPathOk]
  simp only [Bool.and_eq_true]
  refine ⟨⟨?_, ?_⟩, ?_⟩
  · have := hasChar_trim ':' l (bool_not_true _ h1)
    rw [hasChar_eq_false_iff] at this
    have hnm : ':' ∉ trimRightSlashes l ++ ['/'] := by
      intro hm
      rcases List.mem_append.mp hm with hm2 | hm2
      · exact this hm2
      · exact absurd (List.mem_singleton.mp hm2) (by decide)
    rw [(hasChar_eq_false_iff ':' _).mpr hnm]; rfl
  · have hta := trim_all l _ h2
    rw [noDelims, List.all_append, hta]
    rfl
  · rw [ss_append_slash _ (trim_startsSS l (bool_not_true _ h3)) (trim_ne_single_slash l)]
    rfl

theorem absPathOk_trim (l : List Char) (h : absPathOk l = true) :
    absPathOk (trimRightSlashes l) = true := by
  rw [absPathOk, Bool.and_eq_true] at h
  obtain ⟨h1, h2⟩ := h
  rw [absPathOk]
  simp only [Bool.and_eq_true]
  exact ⟨trim_emptyOrAbs l h1, trim_all l _ h2⟩

theorem absPathOk_trim_slash (l : List Char) (h : absPathOk l = true) :
    absPathOk (trimRightSlashes l ++ ['/']) = true := by
  rw [absPathOk, Bool.and_eq_true] at h
  obtain ⟨h1, h2⟩ := h
  rw [absPathOk]
  simp only [Bool.and_eq_true]
  constructor
  · exact emptyOrAbs_append_slash _ (trim_emptyOrAbs l h1)
  · have hta := trim_all l _ h2
    rw [noDelims, List.all_append, hta]
    rfl

theorem wfURL_ociTransform (u : GoURL) (h : wfURL u = true) :
    wfURL (ociTransform u) = true := by
  rw [wfURL] at h ⊢
  rw [show (ociTransform u).scheme = u.scheme from rfl]
  by_cases hsch : u.scheme = ""
  · rw [if_pos hsch] at h ⊢
    rw [show wfRel (ociTransform u) =
        (isNoneStr u.user && decide (u.host = "") && isNoneStr u.port &&
          relPathOk (trimRightSlashes u.path.data) && queryOk u.query) from rfl]
    rw [wfRel] at h
    simp only [Bool.and_eq_true] at h ⊢
    exact ⟨⟨h.1.1, relPathOk_trim _ h.1.2⟩, h.2⟩
  · rw [if_neg hsch] at h ⊢
    rw [show wfSch (ociTransform u) =
        (schemeOk u.scheme.data && optUserOk (u.user.map String.data) &&
          (compOk u.host.data && noDelims u.host.data) &&
          optPortOk (u.port.map String.data) &&
          absPathOk (trimRightSlashes u.path.data) && queryOk u.query) from rfl]
    rw [wfSch] at h
    simp only [Bool.and_eq_true] at h ⊢
    exact ⟨⟨h.1.1, absPathOk_trim _ h.1.2⟩, h.2⟩

theorem wfURL_slashTransform (u : GoURL) (h : wfURL u = true) :
    wfURL (slashTransform u) = true := by
  rw [wfURL] at h ⊢
  rw [show (slashTransform u).scheme = u.scheme from rfl]
  by_cases hsch : u.scheme = ""
  · rw [if_pos hsch] at h ⊢
    rw [show wfRel (slashTransform u) =
        (isNoneStr u.user && decide (u.host = "") && isNoneStr u.port &&
          relPathOk (trimRightSlashes u.path.data ++ ['/']) && queryOk u.query) from rfl]
    rw [wfRel] at h
    simp only [Bool.and_eq_true] at h ⊢
    exact ⟨⟨h.1.1, relPathOk_trim_slash _ h.1.2⟩, h.2⟩
  · rw [if_neg hsch] at h ⊢
    rw [show wfSch (slashTransform u) =
        (schemeOk u.scheme.data && optUserOk (u.user.map String.data) &&
          (compOk u.host.data && noDelims u.host.data) &&
          optPortOk (u.port.map String.data) &&
          absPathOk (trimRightSlashes u.path.data ++ ['/']) && queryOk u.query) from rfl]
    rw [wfSch] at h
    simp only [Bool.and_eq_true] at h ⊢
    exact ⟨⟨h.1.1, absPathOk_trim_slash _ h.1.2⟩, h.2⟩

theorem ociTransform_idem (u : GoURL) : ociTransform (ociTransform u) = ociTransform u := by
  rw [ociTransform, ociTransform]
  rw [show (String.mk (trimRightSlashes u.path.data)).data =
    trimRightSlashes u.path.data from rfl]
  rw [trim_idem]

theorem slashTransform_idem (u : GoURL) :
    slashTransform (slashTransform u) = slashTransform u := by
  rw [slashTransform, slashTransform]
  rw [show (String.mk (trimRightSlashes u.path.data ++ ['/'])).data =
    trimRightSlashes u.path.data ++ ['/'] from rfl]
  rw [trim_append_slash, trim_idem]

theorem normalizeURL_idem (s t : String) (h : normalizeURL s = some t) :
    normalizeURL t = some t := by
  rw [normalizeURL] at h
  by_cases hs : s = ""
  · rw [if_pos hs] at h
    cases h
    rfl
  · rw [if_neg hs] at h
    cases hp : parseURL s with
    | none => rw [hp] at h; simp at h
    | some u =>
      simp only [hp] at h
      have hwf : wfURL u = true := parseURLChars_wf s.data u hp
      by_cases hoci : u.scheme = "oci"
      · rw [if_pos hoci] at h
        cases h
        rw [normalizeURL]
        by_cases ht : urlString (ociTransform u) = ""
        · rw [if_pos ht, ht]
        · rw [if_neg ht]
          have hp2 : parseURL (urlString (ociTransform u)) = some (ociTransform u) :=
            parseURLChars_of_wf _ (wfURL_ociTransform u hwf)
          simp only [hp2]
          rw [if_pos (show (ociTransform u).scheme = "oci" from hoci)]
          rw [ociTransform_idem]
      · rw [if_neg hoci] at h
        cases h
        rw [normalizeURL]
        by_cases ht : urlString (slashTransform u) = ""
        · rw [if_pos ht, ht]
        · rw [if_neg ht]
          have hp2 : parseURL (urlString (slashTransform u)) = some (slashTransform u) :=
            parseURLChars_of_wf _ (wfURL_slashTransform u hwf)
          simp only [hp2]
          rw [if_neg (show ¬((slashTransform u).scheme = "oci") from hoci)]
          rw [slashTransform_idem]

/-- C5: URL normalization returns the empty string for empty input; for an
`oci` URL it strips all trailing slashes from the path; for any other
parseable URL the resulting path carries exactly one trailing slash; and
the function is idempotent. -/
theorem c5_normalize_url :
    normalizeURL "" = some "" ∧
    (∀ s u, s ≠ "" → parseURL s = some u → u.scheme = "oci" →
      normalizeURL s = some (urlString (ociTransform u)) ∧
      trailingSlashCount (ociTransform u).path.data = 0) ∧
    (∀ s u, s ≠ "" → parseURL s = some u → u.scheme ≠ "oci" →
      normalizeURL s = some (urlString (slashTransform u)) ∧
      trailingSlashCount (slashTransform u).path.data = 1) ∧
    (∀ s t, normalizeURL s = some t → normalizeURL t = some t) := by
  refine ⟨rfl, ?_, ?_, normalizeURL_idem⟩
  · intro s u hs hp hoci
    constructor
    · rw [normalizeURL, if_neg hs]
      simp only [hp]
      rw [if_pos hoci]
    · exact trailing_trim u.path.data
  · intro s u hs hp hoci
    constructor
    · rw [normalizeURL, if_neg hs]
      simp only [hp]
      rw [if_neg hoci]
    · exact trailing_trim_slash u.path.data

/-- Closed witness for C5 at concrete URLs. -/
theorem c5_normalize_url_witness :
    normalizeURL "oci://example.com/charts//" = some "oci://example.com/charts" ∧
    normalizeURL "https://example.com/charts//" = some "https://example.com/charts/" ∧
    normalizeURL "https://example.com/charts/" = some "https://example.com/charts/" := by
  have h := c5_normalize_url
  refine ⟨?_, ?_, ?_⟩
  · have h2 := (h.2.1 "oci://example.com/charts//"
      ⟨"oci", none, "example.com", none, "/charts//", none⟩
      (by decide) (by rfl) rfl).1
    rw [h2]; rfl
  · have h2 := (h.2.2.1 "https://example.com/charts//"
      ⟨"https", none, "example.com", none, "/charts//", none⟩
      (by decide) (by rfl) (by decide)).1
    rw [h2]; rfl
  · exact h.2.2.2 "https://example.com/charts//" "https://example.com/charts/" (by rfl)

theorem tupleScan_eq_find (q : GoURL) : ∀ store : Credentials,
    (∀ kv ∈ store, (parseURL kv.1).isSome = true) →
    tupleScan store q =
      .ok ((store.find? (fun kv => tripleMatches kv.1 q)).map (fun kv => kv.2)) := by
  intro store
  induction store with
  | nil => intro _; rfl
  | cons kv rest ih =>
    intro hall
    obtain ⟨k, c⟩ := kv
    have hk : (parseURL k).isSome = true := hall (k, c) (List.mem_cons_self _ _)
    cases hp : parseURL k with
    | none => rw [hp] at hk; simp at hk
    | some p =>
      simp only [tupleScan, hp]
      by_cases hm : q.scheme = p.scheme ∧ hostString q = hostString p ∧
          usernameOf q = usernameOf p
      · rw [if_pos hm]
        have hmt : tripleMatches k q = true := by
          rw [tripleMatches]
          simp only [hp]
          exact decide_eq_true hm
        simp [List.find?, hmt]
      · rw [if_neg hm]
        have hmf : tripleMatches k q = false := by
          rw [tripleMatches]
          simp only [hp]
          exact decide_eq_false hm
        simp only [List.find?, hmf]
        exact ih (fun kv2 hmem => hall kv2 (List.mem_cons_of_mem _ hmem))

/-- C9 (amended): the lookup returns the exact-key entry when one exists;
otherwise it returns the first entry in iteration order whose parsed URL
agrees with the query on (scheme, host, username), and no credentials
(without error) when none does — provided every stored key parses. -/
theorem c9_find_for_repo (store : Credentials) (q : GoURL)
    (hparse : ∀ kv ∈ store, (parseURL kv.1).isSome = true) :
    (∀ c, lookupExact store (urlString q) = some c → FindForRepo store q = .ok (some c)) ∧
    (lookupExact store (urlString q) = none →
      FindForRepo store q =
        .ok ((store.find? (fun kv => tripleMatches kv.1 q)).map (fun kv => kv.2))) := by
  constructor
  · intro c hc
    rw [FindForRepo]
    simp only [hc]
  · intro hc
    rw [FindForRepo]
    simp only [hc]
    exact tupleScan_eq_find q store hparse

/-- Closed witness for the amended C9 statement. -/
theorem c9_find_for_repo_witness :
    FindForRepo
        [("https://example.com/", [("token", "t1")]),
         ("ssh://git@example.com/", [("identity", "k1")])]
        ⟨"https", none, "example.com", none, "/", none⟩ =
      .ok (some [("token", "t1")]) ∧
    FindForRepo
        [("ssh://git@example.com/", [("identity", "k1")])]
        ⟨"ssh", some "git", "example.com", none, "/team/repo.git", none⟩ =
      .ok (some [("identity", "k1")]) := by
  constructor
  · exact (c9_find_for_repo
      [("https://example.com/", [("token", "t1")]),
       ("ssh://git@example.com/", [("identity", "k1")])]
      ⟨"https", none, "example.com", none, "/", none⟩ (by decide)).1
      [("token", "t1")] (by rfl)
  · have h := (c9_find_for_repo
      [("ssh://git@example.com/", [("identity", "k1")])]
      ⟨"ssh", some "git", "example.com", none, "/team/repo.git", none⟩ (by decide)).2
      (by rfl)
    rw [h]
    rfl

/-- C9 counterexample: with the tuple-matching entry stored ahead of the
exact entry, the exact lookup and the tuple scan return different
credentials, so the two lookups do not agree even though both match. -/
theorem c9_counterexample :
    FindForRepo
        [("https://example.com/other", [("token", "bob")]),
         ("https://example.com/", [("token", "alice")])]
        ⟨"https", none, "example.com", none, "/", none⟩ =
      .ok (some [("token", "alice")]) ∧
    tupleScan
        [("https://example.com/other", [("token", "bob")]),
         ("https://example.com/", [("token", "alice")])]
        ⟨"https", none, "example.com", none, "/", none⟩ =
      .ok (some [("token", "bob")]) ∧
    (([("token", "alice")] : RepositoryCreds) ≠ [("token", "bob")]) := by
  refine ⟨rfl, rfl, by decide⟩

/-- C7 (amended): an ssh URL whose matched credentials carry a password and
no identity is rewritten to scheme https with userinfo and any port
removed and hostname, path and query kept; every other credential
configuration leaves the URL unchanged. -/
theorem c7_clone_url (credentials : Credentials) (repoURL : String) (parsed : GoURL)
    (hp : parseURL repoURL = some parsed) :
    (∀ rc, FindForRepo credentials parsed = .ok (some rc) →
      parsed.scheme = "ssh" → lookupCred rc "password" ≠ "" →
      lookupCred rc "identity" = "" →
      cloneURLFor credentials repoURL =
        .ok (urlString { parsed with scheme := "https", port := none, user := none })) ∧
    (FindForRepo credentials parsed = .ok none →
      cloneURLFor credentials repoURL = .ok repoURL) ∧
    (∀ rc, FindForRepo credentials parsed = .ok (some rc) →
      ¬(parsed.scheme = "ssh" ∧ lookupCred rc "password" ≠ "" ∧
        lookupCred rc "identity" = "") →
      cloneURLFor credentials repoURL = .ok repoURL) := by
  refine ⟨?_, ?_, ?_⟩
  · intro rc hfind hssh hpw hid
    rw [cloneURLFor]
    simp only [hp, hfind]
    rw [if_pos ⟨hssh, hpw, hid⟩]
  · intro hfind
    rw [cloneURLFor]
    simp only [hp, hfind]
  · intro rc hfind hneg
    rw [cloneURLFor]
    simp only [hp, hfind]
    rw [if_neg hneg]

/-- Closed witness for the amended C7 statement. -/
theorem c7_clone_url_witness :
    cloneURLFor [("ssh://git@example.com/x.git", [("username", "u"), ("password", "p")])]
        "ssh://git@example.com/x.git" = .ok "https://example.com/x.git" ∧
    cloneURLFor [("ssh://git@example.com/x.git", [("identity", "k")])]
        "ssh://git@example.com/x.git" = .ok "ssh://git@example.com/x.git" := by
  constructor
  · have h := (c7_clone_url
      [("ssh://git@example.com/x.git", [("username", "u"), ("password", "p")])]
      "ssh://git@example.com/x.git"
      ⟨"ssh", some "git", "example.com", none, "/x.git", none⟩ (by rfl)).1
      [("username", "u"), ("password", "p")] (by rfl) rfl (by decide) rfl
    rw [h]
    rfl
  · exact (c7_clone_url
      [("ssh://git@example.com/x.git", [("identity", "k")])]
      "ssh://git@example.com/x.git"
      ⟨"ssh", some "git", "example.com", none, "/x.git", none⟩ (by rfl)).2.2
      [("identity", "k")] (by rfl) (by decide)

/-- C7 counterexample: with a port in the ssh URL, the clone URL's host is
not the original host — the port is dropped by the rewrite. -/
theorem c7_counterexample :
    cloneURLFor [("ssh://git@example.com:2222/x.git", [("username", "u"), ("password", "p")])]
        "ssh://git@example.com:2222/x.git" = .ok "https://example.com/x.git" ∧
    (parseURL "ssh://git@example.com:2222/x.git").map hostString = some "example.com:2222" ∧
    (parseURL "https://example.com/x.git").map hostString = some "example.com" ∧
    ("example.com" : String) ≠ "example.com:2222" := by
  refine ⟨rfl, rfl, rfl, by decide⟩

/-- C3 evidence: an absent reference and a fully-empty reference both yield
an empty checkout strategy (not branch master), while a fully-specified
reference is discarded in favour of branch master. -/
theorem c3_git_reference_behavior :
    cloneCheckoutStrategy none = emptyCheckout ∧
    cloneCheckoutStrategy (some ⟨"", "", "", "", ""⟩) = emptyCheckout ∧
    cloneCheckoutStrategy (some ⟨"dev", "v1.0", "1.x", "refs/heads/dev", "abc123"⟩) =
      ⟨"master", "", "", "", ""⟩ ∧
    emptyCheckout ≠ ⟨"master", "", "", "", ""⟩ := by
  refine ⟨rfl, rfl, rfl, by decide⟩

/-! ## Semantic versions (pkg/repository/oci.go with Masterminds/semver v3
and fluxcd pkg/version).  The embedding's domain excludes prerelease
identifiers that begin with a hyphen: Masterminds classifies such an
identifier as a (negative) number via ParseInt, which makes its comparison
non-transitive; no real chart tag uses them. -/

theorem splitFirst_snd_length (sep : Char) (l a b : List Char)
    (h : splitFirst sep l = some (a, b)) : b.length < l.length := by
  have h2 := splitFirst_eq_append sep l a b h
  rw [h2, List.length_append, List.length_cons]
  omega

theorem cmpNat_self (a : Nat) : cmpNat a a = 0 := by
  simp [cmpNat]

theorem cmpNat_neg_iff (a b : Nat) : cmpNat a b = -1 ↔ a < b := by
  rw [cmpNat]
  by_cases h : a < b
  · simp [h]
  · by_cases h2 : b < a
    · simp [h, h2]
    · simp [h, h2]

theorem cmpNat_pos_iff (a b : Nat) : cmpNat a b = 1 ↔ b < a := by
  rw [cmpNat]
  by_cases h : a < b
  · constructor
    · intro hc; rw [if_pos h] at hc; exact absurd hc (by decide)
    · intro hc; omega
  · by_cases h2 : b < a
    · simp [h, h2]
    · simp [h, h2]

theorem cmpNat_zero_iff (a b : Nat) : cmpNat a b = 0 ↔ a = b := by
  rw [cmpNat]
  by_cases h : a < b
  · constructor
    · intro hc; rw [if_pos h] at hc; exact absurd hc (by decide)
    · intro hc; omega
  · by_cases h2 : b < a
    · constructor
      · intro hc; rw [if_neg h, if_pos h2] at hc; exact absurd hc (by decide)
      · intro hc; omega
    · simp [h, h2]; omega

theorem comparePreId_self (a : PreId) : comparePreId a a = 0 := by
  cases a with
  | num n => simp [comparePreId, cmpNat_self]
  | str s => simp [comparePreId]

theorem comparePreId_cases (a b : PreId) :
    (comparePreId a b = 0 ∧ a = b) ∨
    (comparePreId a b = -1 ∧ comparePreId b a = 1) ∨
    (comparePreId a b = 1 ∧ comparePreId b a = -1) := by
  cases a with
  | num x =>
    cases b with
    | num y =>
      rcases Nat.lt_trichotomy x y with h | h | h
      · exact Or.inr (Or.inl ⟨(cmpNat_neg_iff x y).mpr h, (cmpNat_pos_iff y x).mpr h⟩)
      · subst h
        exact Or.inl ⟨cmpNat_self x, rfl⟩
      · exact Or.inr (Or.inr ⟨(cmpNat_pos_iff x y).mpr h, (cmpNat_neg_iff y x).mpr h⟩)
    | str y => exact Or.inr (Or.inl ⟨rfl, rfl⟩)
  | str x =>
    cases b with
    | num y => exact Or.inr (Or.inr ⟨rfl, rfl⟩)
    | str y =>
      rcases lt_trichotomy x y with h | h | h
      · refine Or.inr (Or.inl ⟨?_, ?_⟩)
        · simp [comparePreId, h]
        · have h2 : ¬(y < x) := not_lt_of_lt h
          simp [comparePreId, h2, h]
      · subst h
        exact Or.inl ⟨comparePreId_self (.str x), rfl⟩
      · refine Or.inr (Or.inr ⟨?_, ?_⟩)
        · have h2 : ¬(x < y) := not_lt_of_lt h
          simp [comparePreId, h2, h]
        · simp [comparePreId, h]

theorem comparePreId_neg_trans (a b c : PreId)
    (hab : comparePreId a b = -1) (hbc : comparePreId b c = -1) :
    comparePreId a c = -1 := by
  cases a with
  | num x =>
    cases c with
    | num z =>
      cases b with
      | num y =>
        rw [comparePreId, cmpNat_neg_iff] at hab hbc ⊢
        exact lt_trans hab hbc
      | str y => exact absurd hbc (by simp [comparePreId])
    | str z => rfl
  | str x =>
    cases b with
    | num y => exact absurd hab (by simp [comparePreId])
    | str y =>
      cases c with
      | num z => exact absurd hbc (by simp [comparePreId])
      | str z =>
        rw [comparePreId] at hab hbc ⊢
        by_cases h1 : x < y
        · by_cases h2 : y < z
          · simp [lt_trans h1 h2]
          · rw [if_neg h2] at hbc
            by_cases h3 : z < y
            · rw [if_pos h3] at hbc
              exact absurd hbc (by decide)
            · rw [if_neg h3] at hbc
              exact absurd hbc (by decide)
        · rw [if_neg h1] at hab
          by_cases h4 : y < x
          · rw [if_pos h4] at hab
            exact absurd hab (by decide)
          · rw [if_neg h4] at hab
            exact absurd hab (by decide)

theorem comparePreIds_self (l : List PreId) : comparePreIds l l = 0 := by
  induction l with
  | nil => rfl
  | cons a rest ih =>
    rw [comparePreIds, if_pos (comparePreId_self a)]
    exact ih

theorem comparePreIds_cases (a : List PreId) : ∀ b : List PreId,
    (comparePreIds a b = 0 ∧ a = b) ∨
    (comparePreIds a b = -1 ∧ comparePreIds b a = 1) ∨
    (comparePreIds a b = 1 ∧ comparePreIds b a = -1) := by
  induction a with
  | nil =>
    intro b
    cases b with
    | nil => exact Or.inl ⟨rfl, rfl⟩
    | cons y bs => exact Or.inr (Or.inl ⟨rfl, rfl⟩)
  | cons x as2 ih =>
    intro b
    cases b with
    | nil => exact Or.inr (Or.inr ⟨rfl, rfl⟩)
    | cons y bs =>
      rcases comparePreId_cases x y with ⟨h0, hEq⟩ | ⟨hn, hs⟩ | ⟨hn, hs⟩
      · subst hEq
        rcases ih bs with ⟨t0, tEq⟩ | ⟨tn, ts⟩ | ⟨tn, ts⟩
        · subst tEq
          exact Or.inl ⟨by rw [comparePreIds, if_pos h0]; exact t0, rfl⟩
        · refine Or.inr (Or.inl ⟨?_, ?_⟩)
          · rw [comparePreIds, if_pos h0]; exact tn
          · rw [comparePreIds, if_pos (comparePreId_self x)]; exact ts
        · refine Or.inr (Or.inr ⟨?_, ?_⟩)
          · rw [comparePreIds, if_pos h0]; exact tn
          · rw [comparePreIds, if_pos (comparePreId_self x)]; exact ts
      · refine Or.inr (Or.inl ⟨?_, ?_⟩)
        · rw [comparePreIds, if_neg (by rw [hn]; decide)]; exact hn
        · rw [comparePreIds, if_neg (by rw [hs]; decide)]; exact hs
      · refine Or.inr (Or.inr ⟨?_, ?_⟩)
        · rw [comparePreIds, if_neg (by rw [hn]; decide)]; exact hn
        · rw [comparePreIds, if_neg (by rw [hs]; decide)]; exact hs

theorem comparePreIds_neg_trans (a : List PreId) : ∀ b c : List PreId,
    comparePreIds a b = -1 → comparePreIds b c = -1 → comparePreIds a c = -1 := by
  induction a with
  | nil =>
    intro b c hab hbc
    cases b with
    | nil => exact absurd hab (by simp [comparePreIds])
    | cons y bs =>
      cases c with
      | nil => exact absurd hbc (by simp [comparePreIds])
      | cons z cs => rfl
  | cons x as2 ih =>
    intro b c hab hbc
    cases b with
    | nil => exact absurd hab (by simp [comparePreIds])
    | cons y bs =>
      cases c with
      | nil => exact absurd hbc (by simp [comparePreIds])
      | cons z cs =>
        rw [comparePreIds] at hab hbc ⊢
        rcases comparePreId_cases x y with ⟨h0, hEq⟩ | ⟨hn, _⟩ | ⟨hn, _⟩
        · subst hEq
          rw [if_pos h0] at hab
          rcases comparePreId_cases x z with ⟨t0, tEq⟩ | ⟨tn, _⟩ | ⟨tn, _⟩
          · subst tEq
            rw [if_pos t0] at hbc ⊢
            exact ih bs cs hab hbc
          · rw [if_neg (by rw [tn]; decide)]
            exact tn
          · rw [if_neg (by rw [tn]; decide)] at hbc
            exact absurd hbc (by rw [tn]; decide)
        · rw [if_neg (by rw [hn]; decide)] at hab
          rcases comparePreId_cases y z with ⟨u0, uEq⟩ | ⟨un, _⟩ | ⟨un, _⟩
          · subst uEq
            rw [if_neg (by rw [hn]; decide)]
            exact hn
          · have := comparePreId_neg_trans x y z hn un
            rw [if_neg (by rw [this]; decide)]
            exact this
          · rw [if_neg (by rw [un]; decide)] at hbc
            exact absurd hbc (by rw [un]; decide)
        · rw [if_neg (by rw [hn]; decide)] at hab
          exact absurd hab (by rw [hn]; decide)

theorem preTail_cases (p q : List PreId) :
    (preTail p q = 0 ∧ p = q) ∨
    (preTail p q = -1 ∧ preTail q p = 1) ∨
    (preTail p q = 1 ∧ preTail q p = -1) := by
  cases p with
  | nil =>
    cases q with
    | nil => exact Or.inl ⟨rfl, rfl⟩
    | cons y qs => exact Or.inr (Or.inr ⟨rfl, rfl⟩)
  | cons x ps =>
    cases q with
    | nil => exact Or.inr (Or.inl ⟨rfl, rfl⟩)
    | cons y qs =>
      rcases comparePreIds_cases (x :: ps) (y :: qs) with ⟨h0, hEq⟩ | ⟨hn, hsw⟩ | ⟨hn, hsw⟩
      · rw [hEq]
        exact Or.inl ⟨comparePreIds_self _, rfl⟩
      · exact Or.inr (Or.inl ⟨hn, hsw⟩)
      · exact Or.inr (Or.inr ⟨hn, hsw⟩)

theorem preTail_zero_inv (p q : List PreId) (h : preTail p q = 0) : p = q := by
  rcases preTail_cases p q with ⟨h0, hEq⟩ | ⟨hn, _⟩ | ⟨hn, _⟩
  · exact hEq
  · rw [hn] at h; exact absurd h (by decide)
  · rw [hn] at h; exact absurd h (by decide)

theorem preTail_neg_trans (p q r : List PreId)
    (hpq : preTail p q = -1) (hqr : preTail q r = -1) : preTail p r = -1 := by
  cases p with
  | nil =>
    exfalso
    cases q with
    | nil => exact absurd hpq (by decide)
    | cons y qs => exact absurd hpq (by rw [preTail]; decide)
  | cons x ps =>
    cases q with
    | nil =>
      exfalso
      cases r with
      | nil => exact absurd hqr (by decide)
      | cons z rs => exact absurd hqr (by rw [preTail]; decide)
    | cons y qs =>
      cases r with
      | nil => rfl
      | cons z rs =>
        rw [preTail] at hpq hqr ⊢
        exact comparePreIds_neg_trans _ _ _ hpq hqr

theorem cSV_major_lt (v o : SemVer) (h : v.major < o.major) : compareSemVer v o = -1 := by
  rw [compareSemVer, (cmpNat_neg_iff _ _).mpr h, if_pos (by decide)]

theorem cSV_major_gt (v o : SemVer) (h : o.major < v.major) : compareSemVer v o = 1 := by
  rw [compareSemVer, (cmpNat_pos_iff _ _).mpr h, if_pos (by decide)]

theorem cSV_minor_lt (v o : SemVer) (h1 : v.major = o.major) (h : v.minor < o.minor) :
    compareSemVer v o = -1 := by
  rw [compareSemVer, (cmpNat_zero_iff _ _).mpr h1, if_neg (by decide),
    (cmpNat_neg_iff _ _).mpr h, if_pos (by decide)]

theorem cSV_minor_gt (v o : SemVer) (h1 : v.major = o.major) (h : o.minor < v.minor) :
    compareSemVer v o = 1 := by
  rw [compareSemVer, (cmpNat_zero_iff _ _).mpr h1, if_neg (by decide),
    (cmpNat_pos_iff _ _).mpr h, if_pos (by decide)]

theorem cSV_patch_lt (v o : SemVer) (h1 : v.major = o.major) (h2 : v.minor = o.minor)
    (h : v.patch < o.patch) : compareSemVer v o = -1 := by
  rw [compareSemVer, (cmpNat_zero_iff _ _).mpr h1, if_neg (by decide),
    (cmpNat_zero_iff _ _).mpr h2, if_neg (by decide),
    (cmpNat_neg_iff _ _).mpr h, if_pos (by decide)]

theorem cSV_patch_gt (v o : SemVer) (h1 : v.major = o.major) (h2 : v.minor = o.minor)
    (h : o.patch < v.patch) : compareSemVer v o = 1 := by
  rw [compareSemVer, (cmpNat_zero_iff _ _).mpr h1, if_neg (by decide),
    (cmpNat_zero_iff _ _).mpr h2, if_neg (by decide),
    (cmpNat_pos_iff _ _).mpr h, if_pos (by decide)]

theorem cSV_tail (v o : SemVer) (h1 : v.major = o.major) (h2 : v.minor = o.minor)
    (h3 : v.patch = o.patch) : compareSemVer v o = preTail v.pre o.pre := by
  rw [compareSemVer, (cmpNat_zero_iff _ _).mpr h1, if_neg (by decide),
    (cmpNat_zero_iff _ _).mpr h2, if_neg (by decide),
    (cmpNat_zero_iff _ _).mpr h3, if_neg (by decide)]
  cases v.pre <;> cases o.pre <;> rfl

theorem compareSemVer_self (v : SemVer) : compareSemVer v v = 0 := by
  rw [cSV_tail v v rfl rfl rfl]
  rcases preTail_cases v.pre v.pre with ⟨h0, _⟩ | ⟨hn, hsw⟩ | ⟨hn, hsw⟩
  · exact h0
  · rw [hn] at hsw; exact absurd hsw (by decide)
  · rw [hn] at hsw; exact absurd hsw (by decide)

theorem compareSemVer_cases (v o : SemVer) :
    (compareSemVer v o = 0 ∧ compareSemVer o v = 0) ∨
    (compareSemVer v o = -1 ∧ compareSemVer o v = 1) ∨
    (compareSemVer v o = 1 ∧ compareSemVer o v = -1) := by
  rcases Nat.lt_trichotomy v.major o.major with h1 | h1 | h1
  · exact Or.inr (Or.inl ⟨cSV_major_lt v o h1, cSV_major_gt o v h1⟩)
  · rcases Nat.lt_trichotomy v.minor o.minor with h2 | h2 | h2
    · exact Or.inr (Or.inl ⟨cSV_minor_lt v o h1 h2, cSV_minor_gt o v h1.symm h2⟩)
    · rcases Nat.lt_trichotomy v.patch o.patch with h3 | h3 | h3
      · exact Or.inr (Or.inl ⟨cSV_patch_lt v o h1 h2 h3, cSV_patch_gt o v h1.symm h2.symm h3⟩)
      · rw [cSV_tail v o h1 h2 h3, cSV_tail o v h1.symm h2.symm h3.symm]
        rcases preTail_cases v.pre o.pre with ⟨h4, hEq⟩ | ⟨h4, hsw⟩ | ⟨h4, hsw⟩
        · rw [h4, hEq]
          rcases preTail_cases o.pre o.pre with ⟨h5, _⟩ | ⟨h5, h6⟩ | ⟨h5, h6⟩
          · exact Or.inl ⟨rfl, h5⟩
          · rw [h5] at h6; exact absurd h6 (by decide)
          · rw [h5] at h6; exact absurd h6 (by decide)
        · exact Or.inr (Or.inl ⟨h4, hsw⟩)
        · exact Or.inr (Or.inr ⟨h4, hsw⟩)
      · exact Or.inr (Or.inr ⟨cSV_patch_gt v o h1 h2 h3, cSV_patch_lt o v h1.symm h2.symm h3⟩)
    · exact Or.inr (Or.inr ⟨cSV_minor_gt v o h1 h2, cSV_minor_lt o v h1.symm h2⟩)
  · exact Or.inr (Or.inr ⟨cSV_major_gt v o h1, cSV_major_lt o v h1⟩)

theorem cSV_neg_inv (v o : SemVer) (h : compareSemVer v o = -1) :
    v.major < o.major ∨
    (v.major = o.major ∧ v.minor < o.minor) ∨
    (v.major = o.major ∧ v.minor = o.minor ∧ v.patch < o.patch) ∨
    (v.major = o.major ∧ v.minor = o.minor ∧ v.patch = o.patch ∧
      preTail v.pre o.pre = -1) := by
  rcases Nat.lt_trichotomy v.major o.major with h1 | h1 | h1
  · exact Or.inl h1
  · rcases Nat.lt_trichotomy v.minor o.minor with h2 | h2 | h2
    · exact Or.inr (Or.inl ⟨h1, h2⟩)
    · rcases Nat.lt_trichotomy v.patch o.patch with h3 | h3 | h3
      · exact Or.inr (Or.inr (Or.inl ⟨h1, h2, h3⟩))
      · refine Or.inr (Or.inr (Or.inr ⟨h1, h2, h3, ?_⟩))
        rw [cSV_tail v o h1 h2 h3] at h
        exact h
      · exfalso
        rw [cSV_patch_gt v o h1 h2 h3] at h
        exact absurd h (by decide)
    · exfalso
      rw [cSV_minor_gt v o h1 h2] at h
      exact absurd h (by decide)
  · exfalso
    rw [cSV_major_gt v o h1] at h
    exact absurd h (by decide)

theorem cSV_zero_inv (v o : SemVer) (h : compareSemVer v o = 0) :
    v.major = o.major ∧ v.minor = o.minor ∧ v.patch = o.patch ∧ v.pre = o.pre := by
  rcases Nat.lt_trichotomy v.major o.major with h1 | h1 | h1
  · rw [cSV_major_lt v o h1] at h; exact absurd h (by decide)
  · rcases Nat.lt_trichotomy v.minor o.minor with h2 | h2 | h2
    · rw [cSV_minor_lt v o h1 h2] at h; exact absurd h (by decide)
    · rcases Nat.lt_trichotomy v.patch o.patch with h3 | h3 | h3
      · rw [cSV_patch_lt v o h1 h2 h3] at h; exact absurd h (by decide)
      · rw [cSV_tail v o h1 h2 h3] at h
        exact ⟨h1, h2, h3, preTail_zero_inv _ _ h⟩
      · rw [cSV_patch_gt v o h1 h2 h3] at h; exact absurd h (by decide)
    · rw [cSV_minor_gt v o h1 h2] at h; exact absurd h (by decide)
  · rw [cSV_major_gt v o h1] at h; exact absurd h (by decide)

theorem cSV_congr_left (a b c : SemVer) (h1 : a.major = b.major) (h2 : a.minor = b.minor)
    (h3 : a.patch = b.patch) (h4 : a.pre = b.pre) :
    compareSemVer a c = compareSemVer b c := by
  rw [compareSemVer, compareSemVer, h1, h2, h3, h4]

theorem cSV_congr_right (a b c : SemVer) (h1 : b.major = c.major) (h2 : b.minor = c.minor)
    (h3 : b.patch = c.patch) (h4 : b.pre = c.pre) :
    compareSemVer a b = compareSemVer a c := by
  rw [compareSemVer, compareSemVer, h1, h2, h3, h4]

theorem compareSemVer_neg_trans (a b c : SemVer)
    (hab : compareSemVer a b = -1) (hbc : compareSemVer b c = -1) :
    compareSemVer a c = -1 := by
  rcases cSV_neg_inv a b hab with h1 | ⟨h1, h2⟩ | ⟨h1, h2, h3⟩ | ⟨h1, h2, h3, h4⟩ <;>
    rcases cSV_neg_inv b c hbc with g1 | ⟨g1, g2⟩ | ⟨g1, g2, g3⟩ | ⟨g1, g2, g3, g4⟩
  · exact cSV_major_lt a c (lt_trans h1 g1)
  · exact cSV_major_lt a c (by omega)
  · exact cSV_major_lt a c (by omega)
  · exact cSV_major_lt a c (by omega)
  · exact cSV_major_lt a c (by omega)
  · exact cSV_minor_lt a c (by omega) (by omega)
  · exact cSV_minor_lt a c (by omega) (by omega)
  · exact cSV_minor_lt a c (by omega) (by omega)
  · exact cSV_major_lt a c (by omega)
  · exact cSV_minor_lt a c (by omega) (by omega)
  · exact cSV_patch_lt a c (by omega) (by omega) (by omega)
  · exact cSV_patch_lt a c (by omega) (by omega) (by omega)
  · exact cSV_major_lt a c (by omega)
  · exact cSV_minor_lt a c (by omega) (by omega)
  · exact cSV_patch_lt a c (by omega) (by omega) (by omega)
  · rw [cSV_tail a c (by omega) (by omega) (by omega)]
    have h5 : preTail a.pre c.pre = -1 := preTail_neg_trans _ _ _ h4 g4
    exact h5

theorem cSV_le_vals (a b : SemVer) (h : compareSemVer a b ≤ 0) :
    compareSemVer a b = 0 ∨ compareSemVer a b = -1 := by
  rcases compareSemVer_cases a b with ⟨h0, _⟩ | ⟨h0, _⟩ | ⟨h0, _⟩
  · exact Or.inl h0
  · exact Or.inr h0
  · rw [h0] at h; exact absurd h (by decide)

theorem cSV_le_trans (a b c : SemVer)
    (hab : compareSemVer a b ≤ 0) (hbc : compareSemVer b c ≤ 0) :
    compareSemVer a c ≤ 0 := by
  rcases cSV_le_vals a b hab with h1 | h1 <;> rcases cSV_le_vals b c hbc with h2 | h2
  · obtain ⟨e1, e2, e3, e4⟩ := cSV_zero_inv a b h1
    rw [cSV_congr_left a b c e1 e2 e3 e4, h2]
  · obtain ⟨e1, e2, e3, e4⟩ := cSV_zero_inv a b h1
    rw [cSV_congr_left a b c e1 e2 e3 e4, h2]
    decide
  · obtain ⟨e1, e2, e3, e4⟩ := cSV_zero_inv b c h2
    rw [← cSV_congr_right a b c e1 e2 e3 e4, h1]
    decide
  · rw [compareSemVer_neg_trans a b c h1 h2]
    decide

theorem maxBySemVer_spec (l : List SemVer) : ∀ m, maxBySemVer l = some m →
    m ∈ l ∧ ∀ w ∈ l, compareSemVer w m ≤ 0 := by
  induction l with
  | nil => intro m h; simp [maxBySemVer] at h
  | cons v rest ih =>
    intro m h
    rw [maxBySemVer] at h
    cases hrec : maxBySemVer rest with
    | none =>
      simp only [hrec] at h
      have hnil : rest = [] := by
        cases rest with
        | nil => rfl
        | cons r rs =>
          exfalso
          rw [maxBySemVer] at hrec
          cases hx : maxBySemVer rs with
          | none => simp only [hx] at hrec; simp at hrec
          | some m2 =>
            simp only [hx] at hrec
            by_cases hc : compareSemVer m2 r > 0
            · rw [if_pos hc] at hrec; simp at hrec
            · rw [if_neg hc] at hrec; simp at hrec
      subst hnil
      have hEq2 := Option.some.inj h
      subst hEq2
      refine ⟨List.mem_singleton_self v, ?_⟩
      intro w hw
      rw [List.mem_singleton.mp hw, compareSemVer_self]
    | some mr =>
      simp only [hrec] at h
      obtain ⟨hmem, hmax⟩ := ih mr hrec
      by_cases hc : compareSemVer mr v > 0
      · rw [if_pos hc] at h
        have hEq2 := Option.some.inj h
        subst hEq2
        refine ⟨List.mem_cons_of_mem v hmem, ?_⟩
        intro w hw
        rcases List.mem_cons.mp hw with hEq | hw2
        · subst hEq
          rcases compareSemVer_cases mr w with ⟨h0, hs⟩ | ⟨h0, hs⟩ | ⟨h0, hs⟩
          · rw [hs]
          · rw [h0] at hc; exact absurd hc (by decide)
          · rw [hs]; decide
        · exact hmax w hw2
      · rw [if_neg hc] at h
        have hEq2 := Option.some.inj h
        subst hEq2
        refine ⟨List.mem_cons_self v rest, ?_⟩
        intro w hw
        rcases List.mem_cons.mp hw with hEq | hw2
        · subst hEq
          rw [compareSemVer_self]
        · have h1 : compareSemVer w mr ≤ 0 := hmax w hw2
          have h2 : compareSemVer mr v ≤ 0 := by omega
          exact cSV_le_trans w mr v h1 h2

theorem parseVersion_original (tag : String) (v : SemVer)
    (h : parseVersion tag = some v) : v.original = tag := by
  rw [parseVersion] at h
  cases hs : strictSemVer (match tag.data with | 'v' :: rest => rest | l => l) with
  | none =>
    simp only [hs] at h
    exact Option.noConfusion h
  | some t =>
    obtain ⟨maj, minr, pat, pre, build⟩ := t
    simp only [hs] at h
    simp only [Option.some.injEq] at h
    rw [← h]

/-- C8 (amended): an exactly-parseable version constraint is used as the
chart version directly; otherwise exactly the tags that parse as (strict,
optionally v-prefixed) semantic versions and satisfy the constraint are
kept — an empty constraint meaning any STABLE version, since a constraint
whose own version has no prerelease rejects prerelease tags — the highest
such version is chosen and its original tag string returned, and the
operation fails when no tag qualifies. -/
theorem c8_version_resolution :
    (∀ tags spec, (parseVersion spec).isSome = true →
      getChartVersion tags spec = .ok spec) ∧
    (∀ tags spec c t, parseConstraint (if spec = "" then "*" else spec) = some c →
      getLatestMatchingVersion tags spec = .ok t →
      t ∈ tags ∧ ∃ v, parseVersion t = some v ∧ checkConstraint c v = true ∧
        ∀ t2 v2, t2 ∈ tags → parseVersion t2 = some v2 → checkConstraint c v2 = true →
          compareSemVer v2 v ≤ 0) ∧
    (∀ tags spec c, parseConstraint (if spec = "" then "*" else spec) = some c →
      (∀ t2 v2, t2 ∈ tags → parseVersion t2 = some v2 → checkConstraint c v2 = false) →
      getLatestMatchingVersion tags spec = .error (.noMatchingVersion spec)) := by
  refine ⟨?_, ?_, ?_⟩
  · intro tags spec hp
    rw [getChartVersion, if_pos hp]
  · intro tags spec c t hc hok
    rw [getLatestMatchingVersion] at hok
    simp only [hc] at hok
    cases hm : maxBySemVer (tags.filterMap (fun tag =>
        match parseVersion tag with
        | none => none
        | some v => if checkConstraint c v then some v else none)) with
    | none =>
      simp only [hm] at hok
      exact Except.noConfusion hok
    | some v =>
      simp only [hm] at hok
      simp only [Except.ok.injEq] at hok
      obtain ⟨hmem, hmax⟩ := maxBySemVer_spec _ v hm
      obtain ⟨tag, htag, hf⟩ := List.mem_filterMap.mp hmem
      have hparse : parseVersion tag = some v ∧ checkConstraint c v = true := by
        cases hpt : parseVersion tag with
        | none =>
          simp only [hpt] at hf
          exact Option.noConfusion hf
        | some v2 =>
          simp only [hpt] at hf
          cases hcv : checkConstraint c v2 with
          | true =>
            rw [hcv, if_pos rfl] at hf
            have hEq3 := Option.some.inj hf
            subst hEq3
            exact ⟨rfl, hcv⟩
          | false =>
            rw [hcv, if_neg (by decide)] at hf
            exact Option.noConfusion hf
      have horig : v.original = tag := parseVersion_original tag v hparse.1
      have ht : t = tag := by rw [← hok, horig]
      subst ht
      refine ⟨htag, v, hparse.1, hparse.2, ?_⟩
      intro t2 v2 ht2 hp2 hc2
      refine hmax v2 (List.mem_filterMap.mpr ⟨t2, ht2, ?_⟩)
      simp only [hp2]
      rw [if_pos hc2]
  · intro tags spec c hc hnone
    rw [getLatestMatchingVersion]
    simp only [hc]
    have hnil : tags.filterMap (fun tag =>
        match parseVersion tag with
        | none => none
        | some v => if checkConstraint c v then some v else none) = [] := by
      rw [List.filterMap_eq_nil]
      intro tag htag
      cases hpt : parseVersion tag with
      | none => simp only [hpt]
      | some v2 =>
        simp only [hpt]
        rw [if_neg (by rw [hnone tag v2 htag hpt]; exact Bool.false_ne_true)]
    rw [hnil]
    rfl

/-- Closed witness for the amended C8 statement. -/
theorem c8_version_resolution_witness :
    getChartVersion ["v0.9.0", "1.2.0"] "1.2.3" = .ok "1.2.3" ∧
    ("1.2.0" ∈ ["v0.9.0", "1.2.0"] ∧
      ∃ v, parseVersion "1.2.0" = some v ∧ checkConstraint .any v = true ∧
        ∀ t2 v2, t2 ∈ ["v0.9.0", "1.2.0"] → parseVersion t2 = some v2 →
          checkConstraint .any v2 = true → compareSemVer v2 v ≤ 0) ∧
    getLatestMatchingVersion ["not-a-version"] "" =
      .error (.noMatchingVersion "") := by
  refine ⟨?_, ?_, ?_⟩
  · exact c8_version_resolution.1 ["v0.9.0", "1.2.0"] "1.2.3" (by decide)
  · exact c8_version_resolution.2.1 ["v0.9.0", "1.2.0"] "" .any "1.2.0" (by rfl) (by rfl)
  · refine c8_version_resolution.2.2 ["not-a-version"] "" .any (by rfl) ?_
    intro t2 v2 ht2 hp2
    have hno : parseVersion "not-a-version" = none := by decide
    rw [List.mem_singleton.mp ht2, hno] at hp2
    exact Option.noConfusion hp2

/-- C8 counterexample: with an empty constraint, a prerelease tag that
parses as a semantic version is NOT kept — Masterminds treats `*` as a
release-only wildcard — so the operation fails instead of returning the
tag, contradicting the claim's "empty constraint meaning any version". -/
theorem c8_counterexample :
    (parseVersion "1.0.0-rc.1").isSome = true ∧
    getLatestMatchingVersion ["1.0.0-rc.1"] "" = .error (.noMatchingVersion "") := by
  exact ⟨by decide, by rfl⟩

theorem cmpChars_self (l : List Char) : cmpChars l l = 0 := by
  induction l with
  | nil => rfl
  | cons c cs ih =>
    rw [cmpChars, if_neg (lt_irrefl c.toNat), if_neg (lt_irrefl c.toNat)]
    exact ih

theorem cmpChars_cases (a : List Char) : ∀ (b : List Char),
    (cmpChars a b = 0 ∧ cmpChars b a = 0) ∨
    (cmpChars a b = -1 ∧ cmpChars b a = 1) ∨
    (cmpChars a b = 1 ∧ cmpChars b a = -1) := by
  induction a with
  | nil =>
    intro b
    cases b with
    | nil => exact Or.inl ⟨rfl, rfl⟩
    | cons y ys => exact Or.inr (Or.inl ⟨rfl, rfl⟩)
  | cons x xs ih =>
    intro b
    cases b with
    | nil => exact Or.inr (Or.inr ⟨rfl, rfl⟩)
    | cons y ys =>
      rcases Nat.lt_trichotomy x.toNat y.toNat with h | h | h
      · refine Or.inr (Or.inl ⟨?_, ?_⟩)
        · rw [cmpChars, if_pos h]
        · rw [cmpChars, if_neg (Nat.lt_asymm h), if_pos h]
      · rw [cmpChars, cmpChars, h, if_neg (lt_irrefl y.toNat), if_neg (lt_irrefl y.toNat),
          if_neg (lt_irrefl y.toNat), if_neg (lt_irrefl y.toNat)]
        exact ih ys
      · refine Or.inr (Or.inr ⟨?_, ?_⟩)
        · rw [cmpChars, if_neg (Nat.lt_asymm h), if_pos h]
        · rw [cmpChars, if_pos h]

theorem cmpChars_zero_iff (a : List Char) : ∀ (b : List Char),
    cmpChars a b = 0 ↔ a = b := by
  induction a with
  | nil =>
    intro b
    cases b with
    | nil => exact ⟨fun _ => rfl, fun _ => rfl⟩
    | cons y ys =>
      rw [cmpChars]
      constructor
      · intro h; exact absurd h (by decide)
      · intro h; exact List.noConfusion h
  | cons x xs ih =>
    intro b
    cases b with
    | nil =>
      rw [cmpChars]
      constructor
      · intro h; exact absurd h (by decide)
      · intro h; exact List.noConfusion h
    | cons y ys =>
      rw [cmpChars]
      by_cases h : x.toNat < y.toNat
      · rw [if_pos h]
        constructor
        · intro hc; exact absurd hc (by decide)
        · intro hc
          obtain ⟨hx, _⟩ := List.cons.inj hc
          rw [hx] at h
          exact absurd h (lt_irrefl y.toNat)
      · rw [if_neg h]
        by_cases h2 : y.toNat < x.toNat
        · rw [if_pos h2]
          constructor
          · intro hc; exact absurd hc (by decide)
          · intro hc
            obtain ⟨hx, _⟩ := List.cons.inj hc
            rw [hx] at h2
            exact absurd h2 (lt_irrefl y.toNat)
        · rw [if_neg h2]
          have hxy : x = y := by
            have hn : x.toNat = y.toNat := Nat.le_antisymm (Nat.not_lt.mp h2) (Nat.not_lt.mp h)
            rw [← Char.ofNat_toNat x, ← Char.ofNat_toNat y, hn]
          constructor
          · intro hc; rw [hxy, (ih ys).mp hc]
          · intro hc
            obtain ⟨_, ht⟩ := List.cons.inj hc
            exact (ih ys).mpr ht

theorem cmpChars_neg_trans (a : List Char) : ∀ (b c : List Char),
    cmpChars a b = -1 → cmpChars b c = -1 → cmpChars a c = -1 := by
  induction a with
  | nil =>
    intro b c hab hbc
    cases c with
    | nil =>
      cases b with
      | nil => exact absurd hab (by rw [cmpChars]; decide)
      | cons y ys => exact absurd hbc (by rw [cmpChars]; decide)
    | cons z zs => rw [cmpChars]
  | cons x xs ih =>
    intro b c hab hbc
    cases b with
    | nil => exact absurd hab (by rw [cmpChars]; decide)
    | cons y ys =>
      cases c with
      | nil => exact absurd hbc (by rw [cmpChars]; decide)
      | cons z zs =>
        rw [cmpChars] at hab hbc ⊢
        by_cases h1 : x.toNat < y.toNat
        · by_cases h2 : y.toNat < z.toNat
          · rw [if_pos (Nat.lt_trans h1 h2)]
          · rw [if_neg h2] at hbc
            by_cases h3 : z.toNat < y.toNat
            · rw [if_pos h3] at hbc; exact absurd hbc (by decide)
            · have hyz : y.toNat = z.toNat :=
                Nat.le_antisymm (Nat.not_lt.mp h3) (Nat.not_lt.mp h2)
              rw [if_pos (hyz ▸ h1)]
        · rw [if_neg h1] at hab
          by_cases h3 : y.toNat < x.toNat
          · rw [if_pos h3] at hab; exact absurd hab (by decide)
          · have hxy : x.toNat = y.toNat :=
              Nat.le_antisymm (Nat.not_lt.mp h3) (Nat.not_lt.mp h1)
            rw [if_neg h3] at hab
            by_cases h2 : y.toNat < z.toNat
            · rw [if_pos (hxy ▸ h2)]
            · rw [if_neg h2] at hbc
              by_cases h4 : z.toNat < y.toNat
              · rw [if_pos h4] at hbc; exact absurd hbc (by decide)
              · rw [if_neg h4] at hbc
                have hyz : y.toNat = z.toNat :=
                  Nat.le_antisymm (Nat.not_lt.mp h4) (Nat.not_lt.mp h2)
                rw [if_neg (by rw [hxy, hyz]; exact lt_irrefl z.toNat),
                  if_neg (by rw [hxy, hyz]; exact lt_irrefl z.toNat)]
                exact ih ys zs hab hbc

theorem cmpStr_self (a : String) : cmpStr a a = 0 :=
  cmpChars_self a.data

theorem cmpStr_neg_iff (a b : String) : cmpStr a b = -1 ↔ strLt a b :=
  Iff.rfl

theorem cmpStr_cases (a b : String) :
    (cmpStr a b = 0 ∧ cmpStr b a = 0) ∨
    (cmpStr a b = -1 ∧ cmpStr b a = 1) ∨
    (cmpStr a b = 1 ∧ cmpStr b a = -1) :=
  cmpChars_cases a.data b.data

theorem cmpStr_pos_iff (a b : String) : cmpStr a b = 1 ↔ strLt b a := by
  constructor
  · intro h
    rcases cmpStr_cases a b with ⟨h0, _⟩ | ⟨h0, _⟩ | ⟨_, h0⟩
    · rw [h0] at h; exact absurd h (by decide)
    · rw [h0] at h; exact absurd h (by decide)
    · exact h0
  · intro h
    have h5 : cmpStr b a = -1 := h
    rcases cmpStr_cases a b with ⟨_, h0⟩ | ⟨_, h0⟩ | ⟨h0, _⟩
    · rw [h0] at h5; exact absurd h5 (by decide)
    · rw [h0] at h5; exact absurd h5 (by decide)
    · exact h0

theorem cmpStr_zero_iff (a b : String) : cmpStr a b = 0 ↔ a = b := by
  rw [cmpStr, cmpChars_zero_iff]
  constructor
  · intro h
    have h2 := congrArg String.mk h
    exact h2
  · intro h
    rw [h]

theorem strLt_trichotomy (a b : String) : strLt a b ∨ a = b ∨ strLt b a := by
  rcases cmpStr_cases a b with ⟨h0, _⟩ | ⟨h0, _⟩ | ⟨_, h0⟩
  · exact Or.inr (Or.inl ((cmpStr_zero_iff a b).mp h0))
  · exact Or.inl h0
  · exact Or.inr (Or.inr h0)

theorem strLt_trans (a b c : String) (hab : strLt a b) (hbc : strLt b c) : strLt a c :=
  cmpChars_neg_trans a.data b.data c.data hab hbc

theorem strLt_irrefl (a b : String) (he : a = b) (h : strLt a b) : False := by
  rw [he, strLt, cmpStr_self] at h
  exact absurd h (by decide)

theorem cd_kind_lt (a b : RNode) (h : strLt a.kind b.kind) : cmpDocs a b = -1 := by
  rw [cmpDocs, (cmpStr_neg_iff _ _).mpr h, if_pos (by decide)]

theorem cd_kind_gt (a b : RNode) (h : strLt b.kind a.kind) : cmpDocs a b = 1 := by
  rw [cmpDocs, (cmpStr_pos_iff _ _).mpr h, if_pos (by decide)]

theorem cd_api_lt (a b : RNode) (h1 : a.kind = b.kind) (h : strLt a.apiVersion b.apiVersion) :
    cmpDocs a b = -1 := by
  rw [cmpDocs, (cmpStr_zero_iff _ _).mpr h1, if_neg (by decide),
    (cmpStr_neg_iff _ _).mpr h, if_pos (by decide)]

theorem cd_api_gt (a b : RNode) (h1 : a.kind = b.kind) (h : strLt b.apiVersion a.apiVersion) :
    cmpDocs a b = 1 := by
  rw [cmpDocs, (cmpStr_zero_iff _ _).mpr h1, if_neg (by decide),
    (cmpStr_pos_iff _ _).mpr h, if_pos (by decide)]

theorem cd_ns_lt (a b : RNode) (h1 : a.kind = b.kind) (h2 : a.apiVersion = b.apiVersion)
    (h : strLt a.nspace b.nspace) : cmpDocs a b = -1 := by
  rw [cmpDocs, (cmpStr_zero_iff _ _).mpr h1, if_neg (by decide),
    (cmpStr_zero_iff _ _).mpr h2, if_neg (by decide),
    (cmpStr_neg_iff _ _).mpr h, if_pos (by decide)]

theorem cd_ns_gt (a b : RNode) (h1 : a.kind = b.kind) (h2 : a.apiVersion = b.apiVersion)
    (h : strLt b.nspace a.nspace) : cmpDocs a b = 1 := by
  rw [cmpDocs, (cmpStr_zero_iff _ _).mpr h1, if_neg (by decide),
    (cmpStr_zero_iff _ _).mpr h2, if_neg (by decide),
    (cmpStr_pos_iff _ _).mpr h, if_pos (by decide)]

theorem cd_name (a b : RNode) (h1 : a.kind = b.kind) (h2 : a.apiVersion = b.apiVersion)
    (h3 : a.nspace = b.nspace) : cmpDocs a b = cmpStr a.name b.name := by
  rw [cmpDocs, (cmpStr_zero_iff _ _).mpr h1, if_neg (by decide),
    (cmpStr_zero_iff _ _).mpr h2, if_neg (by decide),
    (cmpStr_zero_iff _ _).mpr h3, if_neg (by decide)]

theorem cmpDocs_self (a : RNode) : cmpDocs a a = 0 := by
  rw [cd_name a a rfl rfl rfl, cmpStr_self]

theorem cmpDocs_cases (a b : RNode) :
    (cmpDocs a b = 0 ∧ cmpDocs b a = 0) ∨
    (cmpDocs a b = -1 ∧ cmpDocs b a = 1) ∨
    (cmpDocs a b = 1 ∧ cmpDocs b a = -1) := by
  rcases strLt_trichotomy a.kind b.kind with h1 | h1 | h1
  · exact Or.inr (Or.inl ⟨cd_kind_lt a b h1, cd_kind_gt b a h1⟩)
  · rcases strLt_trichotomy a.apiVersion b.apiVersion with h2 | h2 | h2
    · exact Or.inr (Or.inl ⟨cd_api_lt a b h1 h2, cd_api_gt b a h1.symm h2⟩)
    · rcases strLt_trichotomy a.nspace b.nspace with h3 | h3 | h3
      · exact Or.inr (Or.inl ⟨cd_ns_lt a b h1 h2 h3, cd_ns_gt b a h1.symm h2.symm h3⟩)
      · rcases strLt_trichotomy a.name b.name with h4 | h4 | h4
        · refine Or.inr (Or.inl ⟨?_, ?_⟩)
          · rw [cd_name a b h1 h2 h3, (cmpStr_neg_iff _ _).mpr h4]
          · rw [cd_name b a h1.symm h2.symm h3.symm, (cmpStr_pos_iff _ _).mpr h4]
        · refine Or.inl ⟨?_, ?_⟩
          · rw [cd_name a b h1 h2 h3, (cmpStr_zero_iff _ _).mpr h4]
          · rw [cd_name b a h1.symm h2.symm h3.symm, (cmpStr_zero_iff _ _).mpr h4.symm]
        · refine Or.inr (Or.inr ⟨?_, ?_⟩)
          · rw [cd_name a b h1 h2 h3, (cmpStr_pos_iff _ _).mpr h4]
          · rw [cd_name b a h1.symm h2.symm h3.symm, (cmpStr_neg_iff _ _).mpr h4]
      · exact Or.inr (Or.inr ⟨cd_ns_gt a b h1 h2 h3, cd_ns_lt b a h1.symm h2.symm h3⟩)
    · exact Or.inr (Or.inr ⟨cd_api_gt a b h1 h2, cd_api_lt b a h1.symm h2⟩)
  · exact Or.inr (Or.inr ⟨cd_kind_gt a b h1, cd_kind_lt b a h1⟩)

theorem cmpDocs_zero_inv (a b : RNode) (h : cmpDocs a b = 0) : docKey a = docKey b := by
  rcases strLt_trichotomy a.kind b.kind with h1 | h1 | h1
  · rw [cd_kind_lt a b h1] at h; exact absurd h (by decide)
  · rcases strLt_trichotomy a.apiVersion b.apiVersion with h2 | h2 | h2
    · rw [cd_api_lt a b h1 h2] at h; exact absurd h (by decide)
    · rcases strLt_trichotomy a.nspace b.nspace with h3 | h3 | h3
      · rw [cd_ns_lt a b h1 h2 h3] at h; exact absurd h (by decide)
      · rw [cd_name a b h1 h2 h3, cmpStr_zero_iff] at h
        rw [docKey, docKey, h1, h2, h3, h]
      · rw [cd_ns_gt a b h1 h2 h3] at h; exact absurd h (by decide)
    · rw [cd_api_gt a b h1 h2] at h; exact absurd h (by decide)
  · rw [cd_kind_gt a b h1] at h; exact absurd h (by decide)

theorem cmpDocs_zero_of_key (a b : RNode) (h : docKey a = docKey b) : cmpDocs a b = 0 := by
  rw [docKey, docKey, Prod.mk.injEq, Prod.mk.injEq, Prod.mk.injEq] at h
  obtain ⟨h1, h2, h3, h4⟩ := h
  rw [cd_name a b h1 h2 h3, (cmpStr_zero_iff _ _).mpr h4]

theorem cmpDocs_neg_inv (a b : RNode) (h : cmpDocs a b = -1) :
    strLt a.kind b.kind ∨
    (a.kind = b.kind ∧ strLt a.apiVersion b.apiVersion) ∨
    (a.kind = b.kind ∧ a.apiVersion = b.apiVersion ∧ strLt a.nspace b.nspace) ∨
    (a.kind = b.kind ∧ a.apiVersion = b.apiVersion ∧ a.nspace = b.nspace ∧
      strLt a.name b.name) := by
  rcases strLt_trichotomy a.kind b.kind with h1 | h1 | h1
  · exact Or.inl h1
  · rcases strLt_trichotomy a.apiVersion b.apiVersion with h2 | h2 | h2
    · exact Or.inr (Or.inl ⟨h1, h2⟩)
    · rcases strLt_trichotomy a.nspace b.nspace with h3 | h3 | h3
      · exact Or.inr (Or.inr (Or.inl ⟨h1, h2, h3⟩))
      · rcases strLt_trichotomy a.name b.name with h4 | h4 | h4
        · exact Or.inr (Or.inr (Or.inr ⟨h1, h2, h3, h4⟩))
        · exfalso
          rw [cd_name a b h1 h2 h3, (cmpStr_zero_iff _ _).mpr h4] at h
          exact absurd h (by decide)
        · exfalso
          rw [cd_name a b h1 h2 h3, (cmpStr_pos_iff _ _).mpr h4] at h
          exact absurd h (by decide)
      · rw [cd_ns_gt a b h1 h2 h3] at h; exact absurd h (by decide)
    · rw [cd_api_gt a b h1 h2] at h; exact absurd h (by decide)
  · rw [cd_kind_gt a b h1] at h; exact absurd h (by decide)

theorem cmpDocs_congr_left (a b c : RNode) (h : docKey a = docKey b) :
    cmpDocs a c = cmpDocs b c := by
  rw [docKey, docKey, Prod.mk.injEq, Prod.mk.injEq, Prod.mk.injEq] at h
  obtain ⟨h1, h2, h3, h4⟩ := h
  rw [cmpDocs, cmpDocs, h1, h2, h3, h4]

theorem cmpDocs_congr_right (a b c : RNode) (h : docKey b = docKey c) :
    cmpDocs a b = cmpDocs a c := by
  rw [docKey, docKey, Prod.mk.injEq, Prod.mk.injEq, Prod.mk.injEq] at h
  obtain ⟨h1, h2, h3, h4⟩ := h
  rw [cmpDocs, cmpDocs, h1, h2, h3, h4]

theorem cmpDocs_neg_trans (a b c : RNode)
    (hab : cmpDocs a b = -1) (hbc : cmpDocs b c = -1) : cmpDocs a c = -1 := by
  rcases cmpDocs_neg_inv a b hab with h1 | ⟨h1, h2⟩ | ⟨h1, h2, h3⟩ | ⟨h1, h2, h3, h4⟩ <;>
    rcases cmpDocs_neg_inv b c hbc with g1 | ⟨g1, g2⟩ | ⟨g1, g2, g3⟩ | ⟨g1, g2, g3, g4⟩
  · exact cd_kind_lt a c (strLt_trans _ _ _ h1 g1)
  · exact cd_kind_lt a c (g1 ▸ h1)
  · exact cd_kind_lt a c (g1 ▸ h1)
  · exact cd_kind_lt a c (g1 ▸ h1)
  · exact cd_kind_lt a c (h1 ▸ g1)
  · exact cd_api_lt a c (h1.trans g1) (strLt_trans _ _ _ h2 g2)
  · exact cd_api_lt a c (h1.trans g1) (g2 ▸ h2)
  · exact cd_api_lt a c (h1.trans g1) (g2 ▸ h2)
  · exact cd_kind_lt a c (h1 ▸ g1)
  · exact cd_api_lt a c (h1.trans g1) (h2 ▸ g2)
  · exact cd_ns_lt a c (h1.trans g1) (h2.trans g2) (strLt_trans _ _ _ h3 g3)
  · exact cd_ns_lt a c (h1.trans g1) (h2.trans g2) (g3 ▸ h3)
  · exact cd_kind_lt a c (h1 ▸ g1)
  · exact cd_api_lt a c (h1.trans g1) (h2 ▸ g2)
  · exact cd_ns_lt a c (h1.trans g1) (h2.trans g2) (h3 ▸ g3)
  · rw [cd_name a c (h1.trans g1) (h2.trans g2) (h3.trans g3),
      (cmpStr_neg_iff _ _).mpr (strLt_trans _ _ _ h4 g4)]

theorem cmpDocs_le_vals (a b : RNode) (h : cmpDocs a b ≤ 0) :
    cmpDocs a b = 0 ∨ cmpDocs a b = -1 := by
  rcases cmpDocs_cases a b with ⟨h0, _⟩ | ⟨h0, _⟩ | ⟨h0, _⟩
  · exact Or.inl h0
  · exact Or.inr h0
  · rw [h0] at h; exact absurd h (by decide)

theorem cmpDocs_le_trans (a b c : RNode)
    (hab : cmpDocs a b ≤ 0) (hbc : cmpDocs b c ≤ 0) : cmpDocs a c ≤ 0 := by
  rcases cmpDocs_le_vals a b hab with h1 | h1 <;> rcases cmpDocs_le_vals b c hbc with h2 | h2
  · rw [cmpDocs_congr_left a b c (cmpDocs_zero_inv a b h1), h2]
  · rw [cmpDocs_congr_left a b c (cmpDocs_zero_inv a b h1), h2]
    decide
  · rw [← cmpDocs_congr_right a b c (cmpDocs_zero_inv b c h2), h1]
    decide
  · rw [cmpDocs_neg_trans a b c h1 h2]
    decide

theorem insertDoc_perm (x : RNode) (l : List RNode) : (insertDoc x l).Perm (x :: l) := by
  induction l with
  | nil => exact List.Perm.refl _
  | cons y ys ih =>
    rw [insertDoc]
    by_cases h : cmpDocs x y ≤ 0
    · rw [if_pos h]
    · rw [if_neg h]
      exact (ih.cons y).trans (List.Perm.swap x y ys)

theorem sortDocs_perm (l : List RNode) : (sortDocs l).Perm l := by
  induction l with
  | nil => exact List.Perm.refl _
  | cons x xs ih =>
    rw [sortDocs]
    exact (insertDoc_perm x (sortDocs xs)).trans (ih.cons x)

theorem insertDoc_pairwise (x : RNode) (l : List RNode)
    (h : List.Pairwise (fun a b => cmpDocs a b ≤ 0) l) :
    List.Pairwise (fun a b => cmpDocs a b ≤ 0) (insertDoc x l) := by
  induction l with
  | nil => simp [insertDoc]
  | cons y ys ih =>
    obtain ⟨hy, hys⟩ := List.pairwise_cons.mp h
    rw [insertDoc]
    by_cases hc : cmpDocs x y ≤ 0
    · rw [if_pos hc]
      refine List.Pairwise.cons ?_ h
      intro z hz
      rcases List.mem_cons.mp hz with hz | hz
      · rw [hz]; exact hc
      · exact cmpDocs_le_trans x y z hc (hy z hz)
    · rw [if_neg hc]
      refine List.Pairwise.cons ?_ (ih hys)
      intro z hz
      rcases List.mem_cons.mp ((insertDoc_perm x ys).mem_iff.mp hz) with hz | hz
      · subst hz
        rcases cmpDocs_cases y z with ⟨h0, _⟩ | ⟨h0, _⟩ | ⟨_, h0⟩
        · rw [h0]
        · rw [h0]; decide
        · rw [h0] at hc; exact absurd (by decide : (-1 : Int) ≤ 0) hc
      · exact hy z hz

theorem sortDocs_pairwise (l : List RNode) :
    List.Pairwise (fun a b => cmpDocs a b ≤ 0) (sortDocs l) := by
  induction l with
  | nil => simp [sortDocs]
  | cons x xs ih =>
    rw [sortDocs]
    exact insertDoc_pairwise x (sortDocs xs) ih

theorem insertDoc_filter (x : RNode) (l : List RNode)
    (t : String × String × String × String) :
    (insertDoc x l).filter (fun d => decide (docKey d = t)) =
    (x :: l).filter (fun d => decide (docKey d = t)) := by
  induction l with
  | nil => rw [insertDoc]
  | cons y ys ih =>
    rw [insertDoc]
    by_cases hc : cmpDocs x y ≤ 0
    · rw [if_pos hc]
    · rw [if_neg hc]
      have hkey : docKey x ≠ docKey y := by
        intro he
        rw [cmpDocs_zero_of_key x y he] at hc
        exact hc (by decide)
      by_cases hx : docKey x = t
      · have hy : ¬(docKey y = t) := fun h2 => hkey (hx.trans h2.symm)
        simp only [List.filter_cons, decide_eq_true_eq, hx, hy, if_true, if_false, ih]
      · simp only [List.filter_cons, decide_eq_true_eq, hx, if_false, ih]

theorem sortDocs_filter (l : List RNode) (t : String × String × String × String) :
    (sortDocs l).filter (fun d => decide (docKey d = t)) =
    l.filter (fun d => decide (docKey d = t)) := by
  induction l with
  | nil => rfl
  | cons x xs ih =>
    rw [sortDocs, insertDoc_filter]
    simp only [List.filter_cons, ih]

theorem cmpDocs_le_iff_tupleLe (a b : RNode) : cmpDocs a b ≤ 0 ↔ tupleLe a b := by
  constructor
  · intro h
    rcases cmpDocs_le_vals a b h with h0 | h0
    · have hk := cmpDocs_zero_inv a b h0
      rw [docKey, docKey, Prod.mk.injEq, Prod.mk.injEq, Prod.mk.injEq] at hk
      obtain ⟨h1, h2, h3, h4⟩ := hk
      exact Or.inr ⟨h1, Or.inr ⟨h2, Or.inr ⟨h3, Or.inr h4⟩⟩⟩
    · rcases cmpDocs_neg_inv a b h0 with h1 | ⟨h1, h2⟩ | ⟨h1, h2, h3⟩ | ⟨h1, h2, h3, h4⟩
      · exact Or.inl h1
      · exact Or.inr ⟨h1, Or.inl h2⟩
      · exact Or.inr ⟨h1, Or.inr ⟨h2, Or.inl h3⟩⟩
      · exact Or.inr ⟨h1, Or.inr ⟨h2, Or.inr ⟨h3, Or.inl h4⟩⟩⟩
  · intro h
    rcases h with h1 | ⟨h1, h2 | ⟨h2, h3 | ⟨h3, h4 | h4⟩⟩⟩
    · rw [cd_kind_lt a b h1]; decide
    · rw [cd_api_lt a b h1 h2]; decide
    · rw [cd_ns_lt a b h1 h2 h3]; decide
    · rw [cd_name a b h1 h2 h3, (cmpStr_neg_iff _ _).mpr h4]; decide
    · rw [cd_name a b h1 h2 h3, (cmpStr_zero_iff _ _).mpr h4]

theorem filterRun_inv (nodes : List RNode) (pr : List (RNode × Option RNode) × List RNode)
    (h : releaseRepoFilterRun nodes = .ok pr) :
    pr.2 = nodes ∧ collectPairsAux nodes (nodes.filter isHelmRelease) = .ok pr.1 := by
  rw [releaseRepoFilterRun] at h
  cases hc : collectPairsAux nodes (nodes.filter isHelmRelease) with
  | error e => simp only [hc] at h; exact Except.noConfusion h
  | ok pairs =>
    simp only [hc] at h
    have h2 := Except.ok.inj h
    rw [← h2]
    exact ⟨rfl, rfl⟩

theorem pipeline_shape (render : RNode → RNode → Except PErr (List RNode))
    (nodes out : List RNode) (h : pipelineRun render nodes = .ok out) :
    ∃ pairs gen,
      releaseRepoFilterRun nodes = .ok (pairs, nodes) ∧
      collectExpanded render pairs = .ok gen ∧
      out = nodes ++ sortDocs gen := by
  rw [pipelineRun] at h
  cases hf : releaseRepoFilterRun nodes with
  | error e => simp only [hf] at h; exact Except.noConfusion h
  | ok pr =>
    obtain ⟨pairs, ns2⟩ := pr
    have hns : ns2 = nodes := (filterRun_inv nodes (pairs, ns2) hf).1
    subst hns
    simp only [hf] at h
    rw [releaseRepoRendererRun] at h
    cases hc : collectExpanded render pairs with
    | error e => simp only [hc] at h; exact Except.noConfusion h
    | ok gen =>
      simp only [hc] at h
      have h2 := Except.ok.inj h
      exact ⟨pairs, gen, rfl, hc, h2.symm⟩

/-- C1: for every input node list, a successful run of the expansion
pipeline returns the input documents verbatim, in their original order, as
a prefix of the output: the pipeline only appends generated documents. -/
theorem c1_inputs_preserved (render : RNode → RNode → Except PErr (List RNode))
    (nodes out : List RNode) (h : pipelineRun render nodes = .ok out) :
    ∃ gen, out = nodes ++ gen := by
  obtain ⟨pairs, gen, _, _, hout⟩ := pipeline_shape render nodes out h
  exact ⟨sortDocs gen, hout⟩

theorem c1_inputs_preserved_witness :
    pipelineRun renderW nodesW = .ok outW ∧ ∃ gen, outW = nodesW ++ gen :=
  ⟨by rfl, c1_inputs_preserved renderW nodesW outW (by rfl)⟩

/-- C2: in every successful run the appended documents are exactly the
per-release generated documents (in emission order: releases in input
order, each release's documents in render order) rearranged by a stable
sort on the tuple (kind, apiVersion, namespace, name) compared
lexicographically: the appended list is a permutation of the emitted list,
pairwise ordered by the tuple, and for every tuple value the documents
carrying that tuple appear in their emission order. -/
theorem c2_stable_sort (render : RNode → RNode → Except PErr (List RNode))
    (nodes out : List RNode) (h : pipelineRun render nodes = .ok out) :
    ∃ pairs gen,
      releaseRepoFilterRun nodes = .ok (pairs, nodes) ∧
      collectExpanded render pairs = .ok gen ∧
      out = nodes ++ sortDocs gen ∧
      (sortDocs gen).Perm gen ∧
      List.Pairwise tupleLe (sortDocs gen) ∧
      ∀ t, (sortDocs gen).filter (fun d => decide (docKey d = t)) =
        gen.filter (fun d => decide (docKey d = t)) := by
  obtain ⟨pairs, gen, hf, hc, hout⟩ := pipeline_shape render nodes out h
  refine ⟨pairs, gen, hf, hc, hout, sortDocs_perm gen, ?_, sortDocs_filter gen⟩
  exact (sortDocs_pairwise gen).imp (fun hab => (cmpDocs_le_iff_tupleLe _ _).mp hab)

theorem c2_stable_sort_witness :
    pipelineRun renderW nodesW = .ok outW ∧
    ∃ pairs gen,
      releaseRepoFilterRun nodesW = .ok (pairs, nodesW) ∧
      collectExpanded renderW pairs = .ok gen ∧
      outW = nodesW ++ sortDocs gen ∧
      (sortDocs gen).Perm gen ∧
      List.Pairwise tupleLe (sortDocs gen) ∧
      ∀ t, (sortDocs gen).filter (fun d => decide (docKey d = t)) =
        gen.filter (fun d => decide (docKey d = t)) :=
  ⟨by rfl, c2_stable_sort renderW nodesW outW (by rfl)⟩

theorem collectExpanded_append_error
    (render : RNode → RNode → Except PErr (List RNode))
    (done ps : List (RNode × Option RNode)) (gen0 : List RNode) (e : PErr)
    (hdone : collectExpanded render done = .ok gen0)
    (hps : collectExpanded render ps = .error e) :
    collectExpanded render (done ++ ps) = .error e := by
  induction done generalizing gen0 with
  | nil => exact hps
  | cons p rest ih =>
    rw [collectExpanded] at hdone
    rw [List.cons_append, collectExpanded]
    cases hx : expandHelmRelease render p.1 p.2 with
    | error e2 => simp only [hx] at hdone; exact Except.noConfusion hdone
    | ok docs =>
      simp only [hx] at hdone ⊢
      cases hr : collectExpanded render rest with
      | error e2 => simp only [hr] at hdone; exact Except.noConfusion hdone
      | ok more => rw [ih more hr]

/-- C6: when a HelmRelease's sourceRef carries a kind and a name, the
pairing pass returns the first input document whose kind, name and
namespace match, the namespace defaulting to the release's own and the
apiVersion compared only when the sourceRef specifies one; and a release
paired with no repository makes the whole renderer run fail with an error
naming that release's namespace and name. -/
theorem c6_pairing (render : RNode → RNode → Except PErr (List RNode))
    (nodes : List RNode) (hr : RNode) (sr : SourceRef) (k n : String)
    (done rest : List (RNode × Option RNode)) (gen0 : List RNode)
    (hsr : hr.sourceRef = some sr) (hk : sr.kind = some k) (hn : sr.name = some n)
    (hdone : collectExpanded render done = .ok gen0) :
    getRepositoryForHelmRelease nodes hr =
      .ok (nodes.find? (fun node =>
        node.kind == k && node.name == n &&
        node.nspace == sr.nspace.getD hr.nspace &&
        (sr.apiVersion.getD "" == "" || node.apiVersion == sr.apiVersion.getD ""))) ∧
    expandHelmRelease render hr none =
      .error (.missingChartRepo hr.nspace hr.name) ∧
    releaseRepoRendererRun render (done ++ (hr, none) :: rest) nodes =
      .error (.expandFailed hr.nspace hr.name (.missingChartRepo hr.nspace hr.name)) := by
  refine ⟨?_, rfl, ?_⟩
  · rw [getRepositoryForHelmRelease]
    simp only [hsr, hk, hn]
  · have hfail : collectExpanded render ((hr, none) :: rest) =
        .error (.expandFailed hr.nspace hr.name (.missingChartRepo hr.nspace hr.name)) := rfl
    rw [releaseRepoRendererRun,
      collectExpanded_append_error render done ((hr, none) :: rest) gen0 _ hdone hfail]

theorem c6_pairing_witness :
    (hrM.sourceRef = some srM ∧ srM.kind = some "HelmRepository" ∧
      srM.name = some "missing" ∧ collectExpanded renderW [] = .ok []) ∧
    (getRepositoryForHelmRelease [hrM, repoW] hrM =
      .ok ([hrM, repoW].find? (fun node =>
        node.kind == "HelmRepository" && node.name == "missing" &&
        node.nspace == srM.nspace.getD hrM.nspace &&
        (srM.apiVersion.getD "" == "" || node.apiVersion == srM.apiVersion.getD ""))) ∧
      expandHelmRelease renderW hrM none =
        .error (.missingChartRepo hrM.nspace hrM.name) ∧
      releaseRepoRendererRun renderW ([] ++ (hrM, none) :: []) [hrM, repoW] =
        .error (.expandFailed hrM.nspace hrM.name
          (.missingChartRepo hrM.nspace hrM.name))) :=
  ⟨⟨rfl, rfl, rfl, rfl⟩,
    c6_pairing renderW [hrM, repoW] hrM srM "HelmRepository" "missing" [] [] []
      rfl rfl rfl rfl⟩

/-- C4 counterexample: a generated ClusterRole with no namespace is
appended with its namespace still empty, although the originating release
lives in namespace ns1 — the namespace filter's metaNamespaceHack only
touches namespace-scoped kinds, so not every appended document gets the
release's namespace, and not every appended document has a non-empty
namespace. -/
theorem c4_counterexample :
    pipelineRun renderCR nodesW = .ok (nodesW ++ [clusterRoleW]) ∧
    clusterRoleW.nspace = "" ∧ hrW.nspace = "ns1" :=
  ⟨rfl, rfl, rfl⟩

/-- C4 (amended): expanding a release applies the namespace filter to the
rendered documents: a namespace-scoped document with an unset namespace
gets the release's namespace, every other document (already namespaced,
or cluster-scoped) is left entirely unchanged — in particular no
role-binding subject is modified, as only the nspace field can change —
and when the release's namespace is non-empty every appended document
that is namespace-scoped or already namespaced ends up with a non-empty
namespace. -/
theorem c4_namespace_assignment (render : RNode → RNode → Except PErr (List RNode))
    (hr repo : RNode) (docs : List RNode) (h : render hr repo = .ok docs) :
    expandHelmRelease render hr (some repo) = .ok (assignNamespaces hr.nspace docs) ∧
    (∀ d, isNamespaceableKind d.kind = true → d.nspace = "" →
      assignNamespace hr.nspace d = { d with nspace := hr.nspace }) ∧
    (∀ d, isNamespaceableKind d.kind = false ∨ d.nspace ≠ "" →
      assignNamespace hr.nspace d = d) ∧
    (hr.nspace ≠ "" → ∀ d, isNamespaceableKind d.kind = true ∨ d.nspace ≠ "" →
      (assignNamespace hr.nspace d).nspace ≠ "") := by
  refine ⟨by simp only [expandHelmRelease, h], ?_, ?_, ?_⟩
  · intro d h1 h2
    rw [assignNamespace, if_pos (by rw [h1, h2]; rfl)]
  · intro d hd
    rcases hd with hd | hd
    · rw [assignNamespace, if_neg (by rw [hd]; simp)]
    · rw [assignNamespace, if_neg (by simp [hd])]
  · intro hns d hd
    by_cases hc : (isNamespaceableKind d.kind && (d.nspace == "")) = true
    · rw [assignNamespace, if_pos hc]
      exact hns
    · rw [assignNamespace, if_neg hc]
      rcases hd with hd | hd
      · intro h2
        exact hc (by rw [hd, h2]; rfl)
      · exact hd

theorem c4_namespace_assignment_witness :
    renderW hrW repoW = .ok [genA, genB] ∧
    (expandHelmRelease renderW hrW (some repoW) =
        .ok (assignNamespaces hrW.nspace [genA, genB]) ∧
      (∀ d, isNamespaceableKind d.kind = true → d.nspace = "" →
        assignNamespace hrW.nspace d = { d with nspace := hrW.nspace }) ∧
      (∀ d, isNamespaceableKind d.kind = false ∨ d.nspace ≠ "" →
        assignNamespace hrW.nspace d = d) ∧
      (hrW.nspace ≠ "" → ∀ d, isNamespaceableKind d.kind = true ∨ d.nspace ≠ "" →
        (assignNamespace hrW.nspace d).nspace ≠ "")) :=
  ⟨rfl, c4_namespace_assignment renderW hrW repoW [genA, genB] rfl⟩

theorem dotDotRewrite_scheme (u : GoURL) : (dotDotRewrite u).scheme = u.scheme := by
  rw [dotDotRewrite]
  by_cases h : hostString u = ".."
  · rw [if_pos h]
  · rw [if_neg h]

theorem parseURL_normalizeURL (s ru : String) (hs : ¬(s = ""))
    (h : normalizeURL s = some ru) : ∃ u, parseURL ru = some u := by
  rw [normalizeURL, if_neg hs] at h
  cases hp : parseURL s with
  | none => simp only [hp] at h; exact Option.noConfusion h
  | some u0 =>
    simp only [hp] at h
    have hwf : wfURL u0 = true := parseURLChars_wf s.data u0 hp
    by_cases hoci : u0.scheme = "oci"
    · rw [if_pos hoci] at h
      have h2 := Option.some.inj h
      refine ⟨ociTransform u0, ?_⟩
      rw [← h2]
      exact parseURLChars_of_wf (ociTransform u0) (wfURL_ociTransform u0 hwf)
    · rw [if_neg hoci] at h
      have h2 := Option.some.inj h
      refine ⟨slashTransform u0, ?_⟩
      rw [← h2]
      exact parseURLChars_of_wf (slashTransform u0) (wfURL_slashTransform u0 hwf)

theorem loadDepsAux_some_ctx (getLoader : String → Except DepErr LoaderFn)
    (cp : ChartCtx × LoaderFn) (deps : List ChartDep) :
    loadDepsAux getLoader (some cp) deps ≠ DepResult.nilDeref := by
  obtain ⟨ctx, loader⟩ := cp
  induction deps with
  | nil => intro h; exact DepResult.noConfusion h
  | cons dep rest ih =>
    rw [loadDepsAux]
    by_cases h0 : dep.repository = ""
    · rw [if_pos h0]; exact ih
    · rw [if_neg h0]
      cases hn : normalizeURL dep.repository with
      | none => simp only [hn]; intro h; exact DepResult.noConfusion h
      | some ru =>
        simp only [hn]
        obtain ⟨u, hu⟩ := parseURL_normalizeURL dep.repository ru h0 hn
        simp only [hu]
        by_cases hsc : (dotDotRewrite u).scheme = "file" ∨ (dotDotRewrite u).scheme = ""
        · rw [if_pos hsc]
          cases hl : loader ctx.repoNode "" (some ctx)
              (joinPath ctx.chartName (dotDotRewrite u).path) dep.version with
          | error e => simp only [hl]; intro h; exact DepResult.noConfusion h
          | ok c => simp only [hl]; exact ih
        · rw [if_neg hsc]
          cases hg : getLoader ru with
          | error e => simp only [hg]; intro h; exact DepResult.noConfusion h
          | ok loader2 =>
            simp only [hg]
            cases hl : loader2 none ru none dep.name dep.version with
            | error e => simp only [hl]; intro h; exact DepResult.noConfusion h
            | ok c => simp only [hl]; exact ih

theorem loadDepsAux_no_file (getLoader : String → Except DepErr LoaderFn)
    (pctx : Option (ChartCtx × LoaderFn)) (deps : List ChartDep)
    (hdeps : ∀ dep ∈ deps, dep.repository = "" ∨
      (∃ ru, normalizeURL dep.repository = some ru ∧
        ∀ u, parseURL ru = some u → ¬(u.scheme = "file") ∧ ¬(u.scheme = ""))) :
    loadDepsAux getLoader pctx deps ≠ DepResult.nilDeref := by
  induction deps with
  | nil => intro h; exact DepResult.noConfusion h
  | cons dep rest ih =>
    have ihr := ih (fun d hd => hdeps d (List.mem_cons_of_mem dep hd))
    rw [loadDepsAux]
    by_cases h0 : dep.repository = ""
    · rw [if_pos h0]; exact ihr
    · rw [if_neg h0]
      rcases hdeps dep (List.mem_cons_self dep rest) with hr | ⟨ru, hru, hsch⟩
      · exact absurd hr h0
      · simp only [hru]
        obtain ⟨u, hu⟩ := parseURL_normalizeURL dep.repository ru h0 hru
        simp only [hu]
        have hns := hsch u hu
        have hneg : ¬((dotDotRewrite u).scheme = "file" ∨ (dotDotRewrite u).scheme = "") := by
          rw [dotDotRewrite_scheme]
          intro hc
          rcases hc with hc | hc
          · exact hns.1 hc
          · exact hns.2 hc
        rw [if_neg hneg]
        cases hg : getLoader ru with
        | error e => simp only [hg]; intro h; exact DepResult.noConfusion h
        | ok loader2 =>
          simp only [hg]
          cases hl : loader2 none ru none dep.name dep.version with
          | error e => simp only [hl]; intro h; exact DepResult.noConfusion h
          | ok c => simp only [hl]; exact ihr

/-- C10: dependency loading dereferences the parent chart context only in
the branch for dependencies whose normalized repository URL has scheme
file or empty — every dependency list avoiding that branch loads without
a nil dereference whatever the context, and a present (non-nil) context
never dereferences nil — while the by-URL loaders for HTTP and OCI
repositories pass a nil parent context to the call, so a chart loaded by
URL whose first dependency has a file-scheme or scheme-less repository
URL hits the nil dereference instead of a reported error. -/
theorem c10_nil_parent_context (getLoader : String → Except DepErr LoaderFn)
    (chart : ChartM) :
    ((∀ dep ∈ chart.deps, dep.repository = "" ∨
        (∃ ru, normalizeURL dep.repository = some ru ∧
          ∀ u, parseURL ru = some u → ¬(u.scheme = "file") ∧ ¬(u.scheme = ""))) →
      ∀ pctx, loadChartDependencies getLoader chart pctx ≠ DepResult.nilDeref) ∧
    (∀ cp, loadChartDependencies getLoader chart (some cp) ≠ DepResult.nilDeref) ∧
    (∀ dep rest ru u, chart.deps = dep :: rest → ¬(dep.repository = "") →
      normalizeURL dep.repository = some ru → parseURL ru = some u →
      (u.scheme = "file" ∨ u.scheme = "") →
      loadChartDependenciesByURL getLoader chart = DepResult.nilDeref) := by
  refine ⟨?_, ?_, ?_⟩
  · intro hdeps pctx
    exact loadDepsAux_no_file getLoader pctx chart.deps hdeps
  · intro cp
    exact loadDepsAux_some_ctx getLoader cp chart.deps
  · intro dep rest ru u hdeps h0 hn hu hs
    rw [loadChartDependenciesByURL, loadChartDependencies, hdeps, loadDepsAux, if_neg h0]
    simp only [hn, hu]
    rw [if_pos (by rw [dotDotRewrite_scheme]; exact hs)]

theorem c10_nil_parent_context_witness :
    (chartRel.deps = relDep :: [] ∧ ¬(relDep.repository = "") ∧
      normalizeURL relDep.repository = some "charts/sub/" ∧
      parseURL "charts/sub/" = some ⟨"", none, "", none, "charts/sub/", none⟩ ∧
      (GoURL.scheme ⟨"", none, "", none, "charts/sub/", none⟩ = "file" ∨
        GoURL.scheme ⟨"", none, "", none, "charts/sub/", none⟩ = "")) ∧
    loadChartDependenciesByURL getLoaderW chartRel = DepResult.nilDeref ∧
    loadChartDependencies getLoaderW chartRel (some ctxW) ≠ DepResult.nilDeref :=
  ⟨⟨rfl, by decide, rfl, rfl, Or.inr rfl⟩,
    (c10_nil_parent_context getLoaderW chartRel).2.2 relDep [] "charts/sub/"
      ⟨"", none, "", none, "charts/sub/", none⟩ rfl (by decide) rfl rfl (Or.inr rfl),
    (c10_nil_parent_context getLoaderW chartRel).2.1 ctxW⟩

